import Mathlib

/-!
# Elasticsearch person examples: insert, query, update, delete, create

A shallow embedding of the example programs of the repository
(`insert/insert_person.go`, `query/query_person.go`, `update/update_person.go`,
`delete/delete_person.go`, `create/create_person_index.go`).

* Go strings are byte sequences; a byte is a `Nat` below 256.
* `encoding/json` and `unicode/utf8` are modelled at the byte level, as far as the
  programs use them: `json.Marshal` of strings, of `Person` and of string-keyed
  maps, and `Decoder.Decode` into `map[string]interface{}`. Decoding into the struct
  `SearchResult` is a parameter of `queryByName`.
* An `esapi` request is a value, `req.Do` hands it to the client, which answers
  with a transport error or a response; the requests handed over are logged.
* A run-time panic and `log.Fatalf` are explicit outcomes.
-/

namespace EsPerson

/-! ## Go strings and UTF-8 (`unicode/utf8`) -/

/-- A Go `string`: a sequence of bytes, not necessarily valid UTF-8. -/
abbrev GoString := List Nat

/-- The rune `utf8.RuneError`, U+FFFD. -/
def RuneError : Nat := 0xFFFD

/-- A UTF-8 continuation byte, `10xxxxxx`. -/
def isCont (b : Nat) : Bool := 0x80 ≤ b && b ≤ 0xBF

/-- The function `utf8.DecodeRune`: the first rune of `s` and its width in bytes;
`(RuneError, 0)` for the empty string and `(RuneError, 1)` when `s` does not start
with a well-formed encoding (overlong forms, surrogates and values above U+10FFFF
are not well formed). -/
def decodeRune : GoString → Nat × Nat
  | [] => (RuneError, 0)
  | b0 :: rest =>
    if b0 < 0x80 then (b0, 1)
    else if b0 < 0xC2 then (RuneError, 1)
    else if b0 < 0xE0 then
      match rest with
      | b1 :: _ =>
        if isCont b1 then ((b0 - 0xC0) * 64 + (b1 - 0x80), 2) else (RuneError, 1)
      | _ => (RuneError, 1)
    else if b0 < 0xF0 then
      match rest with
      | b1 :: b2 :: _ =>
        if (if b0 = 0xE0 then 0xA0 else 0x80) ≤ b1
            ∧ b1 ≤ (if b0 = 0xED then 0x9F else 0xBF) ∧ isCont b2 then
          ((b0 - 0xE0) * 4096 + (b1 - 0x80) * 64 + (b2 - 0x80), 3)
        else (RuneError, 1)
      | _ => (RuneError, 1)
    else if b0 < 0xF5 then
      match rest with
      | b1 :: b2 :: b3 :: _ =>
        if (if b0 = 0xF0 then 0x90 else 0x80) ≤ b1
            ∧ b1 ≤ (if b0 = 0xF4 then 0x8F else 0xBF) ∧ isCont b2 ∧ isCont b3 then
          ((b0 - 0xF0) * 262144 + (b1 - 0x80) * 4096 + (b2 - 0x80) * 64 + (b3 - 0x80), 4)
        else (RuneError, 1)
      | _ => (RuneError, 1)
    else (RuneError, 1)

/-- The function `utf8.EncodeRune`: the UTF-8 encoding of rune `r`; surrogates and
values above U+10FFFF are encoded as U+FFFD. -/
def encodeRune (r : Nat) : GoString :=
  if r < 0x80 then [r]
  else if r < 0x800 then [0xC0 + r / 64, 0x80 + r % 64]
  else if (0xD800 ≤ r ∧ r ≤ 0xDFFF) ∨ 0x10FFFF < r then [0xEF, 0xBF, 0xBD]
  else if r < 0x10000 then [0xE0 + r / 4096, 0x80 + r / 64 % 64, 0x80 + r % 64]
  else [0xF0 + r / 262144, 0x80 + r / 4096 % 64, 0x80 + r / 64 % 64, 0x80 + r % 64]

/-- The bytes of a string literal of the source (Go source text is UTF-8). -/
def lit (s : String) : GoString := s.toList.flatMap (fun c => encodeRune c.toNat)

/-- Worker of `validString`: `fuel` bounds the number of runes. -/
def validStringAux : Nat → GoString → Bool
  | 0, s => s.isEmpty
  | _ + 1, [] => true
  | fuel + 1, b :: rest =>
    let d := decodeRune (b :: rest)
    if d.1 = RuneError ∧ d.2 = 1 then false
    else validStringAux fuel ((b :: rest).drop d.2)

/-- The function `utf8.ValidString`: `s` consists of well-formed UTF-8 encodings only. -/
def validString (s : GoString) : Bool := validStringAux s.length s

/-! ## `json.Marshal` (`encoding/json`, encoder) -/

/-- The table `hex` of `encoding/json`: the lower-case hexadecimal digit of `d < 16`. -/
def hexDigit (d : Nat) : Nat := if d < 10 then 0x30 + d else 0x61 + (d - 10)

/-- The table `htmlSafeSet`: the ASCII bytes `json.Marshal` copies unescaped, that is
all of 0x20..0x7F except the double quote, the backslash and the HTML characters
`&`, `<`, `>`. -/
def htmlSafeSet (b : Nat) : Bool :=
  0x20 ≤ b && b < 0x80 && b != 0x22 && b != 0x26 && b != 0x3C && b != 0x3E && b != 0x5C

/-- The escape `appendString` writes for an ASCII byte outside `htmlSafeSet`. -/
def escapeByte (b : Nat) : GoString :=
  if b = 0x5C ∨ b = 0x22 then [0x5C, b]
  else if b = 0x08 then [0x5C, 0x62]
  else if b = 0x0C then [0x5C, 0x66]
  else if b = 0x0A then [0x5C, 0x6E]
  else if b = 0x0D then [0x5C, 0x72]
  else if b = 0x09 then [0x5C, 0x74]
  else [0x5C, 0x75, 0x30, 0x30, hexDigit (b / 16), hexDigit (b % 16)]

/-- The loop of `appendString` (with `escapeHTML`, as `json.Marshal` sets it): the
text between the quotes. ASCII bytes are copied or escaped, an invalid byte becomes
the six-byte escape of U+FFFD, U+2028 and U+2029 are escaped, any other rune is copied.
`fuel` bounds the number of iterations. -/
def appendStringBody : Nat → GoString → GoString
  | 0, _ => []
  | _ + 1, [] => []
  | fuel + 1, b :: rest =>
    if b < 0x80 then
      (if htmlSafeSet b then [b] else escapeByte b) ++ appendStringBody fuel rest
    else
      let d := decodeRune (b :: rest)
      if d.1 = RuneError ∧ d.2 = 1 then
        [0x5C, 0x75, 0x66, 0x66, 0x66, 0x64] ++ appendStringBody fuel rest
      else if d.1 = 0x2028 ∨ d.1 = 0x2029 then
        [0x5C, 0x75, 0x32, 0x30, 0x32, hexDigit (d.1 % 16)]
          ++ appendStringBody fuel ((b :: rest).drop d.2)
      else
        (b :: rest).take d.2 ++ appendStringBody fuel ((b :: rest).drop d.2)

/-- The function `appendString` of `encoding/json`: `src` as a JSON string literal. -/
def appendString (src : GoString) : GoString :=
  0x22 :: (appendStringBody src.length src ++ [0x22])

/-- The struct `Person` of the source: `ID` is marshalled as `id`, `Name` as `name`. -/
structure Person where
  ID : GoString
  Name : GoString
deriving DecidableEq

/-- The call `json.Marshal(person)`: the struct fields in declaration order under their tags.
Marshalling a struct of two strings has no failure case, so the `err` the source
checks is always nil and is not modelled. -/
def marshalPerson (p : Person) : GoString :=
  lit "\x7b\"id\":" ++ appendString p.ID ++ lit ",\"name\":" ++ appendString p.Name
    ++ lit "\x7d"

/-- Byte-wise lexicographic order, `strings.Compare a b ≤ 0`. -/
def strLe : GoString → GoString → Bool
  | [], _ => true
  | _ :: _, [] => false
  | a :: as, b :: bs => a < b || (a == b && strLe as bs)

/-- Insertion of a map entry into a list of entries sorted by key. -/
def insertEntry (e : GoString × GoString) : List (GoString × GoString) → List (GoString × GoString)
  | [] => [e]
  | x :: xs => if strLe e.1 x.1 then e :: x :: xs else x :: insertEntry e xs

/-- The comma-separated members of an object. -/
def joinMembers : List GoString → GoString
  | [] => []
  | [m] => m
  | m :: ms => m ++ 0x2C :: joinMembers ms

/-- The call `json.Marshal` on a `map[string]string` with distinct keys, given by its entries:
an object whose members are sorted by key. -/
def marshalStringMap (entries : List (GoString × GoString)) : GoString :=
  0x7B :: (joinMembers ((entries.foldr insertEntry []).map
    (fun e => appendString e.1 ++ 0x3A :: appendString e.2)) ++ [0x7D])

/-- The call `json.Marshal` on a `map[string]interface{}` with the single key `key`, whose
value is already marshalled. -/
def marshalSingleton (key : GoString) (value : GoString) : GoString :=
  0x7B :: (appendString key ++ 0x3A :: value ++ [0x7D])

/-! ## `Decoder.Decode` (`encoding/json`, decoder) -/

/-- A JSON value as `Decode` stores it in an `interface{}`: `nil`, `bool`,
`float64` (kept as the number literal), `string`, `[]interface{}` and
`map[string]interface{}` (the members in document order; indexing takes the last
member of a key, as a Go map keeps the last value stored). -/
inductive JVal where
  | null
  | bool (b : Bool)
  | num (literal : GoString)
  | str (s : GoString)
  | arr (elems : List JVal)
  | obj (members : List (GoString × JVal))

/-- The constant `maxNestingDepth` of the scanner. -/
def maxNestingDepth : Nat := 10000

/-- The function `isSpace` of the scanner. -/
def isSpace (c : Nat) : Bool := c == 0x20 || c == 0x09 || c == 0x0D || c == 0x0A

/-- Skip JSON white space. -/
def skipSpace : GoString → GoString
  | [] => []
  | c :: rest => if isSpace c then skipSpace rest else c :: rest

/-- An ASCII decimal digit. -/
def isDigit (c : Nat) : Bool := 0x30 ≤ c && c ≤ 0x39

/-- The value of a hexadecimal digit, either case. -/
def unhex (c : Nat) : Option Nat :=
  if 0x30 ≤ c ∧ c ≤ 0x39 then some (c - 0x30)
  else if 0x61 ≤ c ∧ c ≤ 0x66 then some (c - 0x61 + 10)
  else if 0x41 ≤ c ∧ c ≤ 0x46 then some (c - 0x41 + 10)
  else none

/-- The function `getu4`: the rune of a `\uXXXX` escape at the head of `s`, and what
follows the escape; `none` when `s` does not start with such an escape. -/
def getu4 (s : GoString) : Option (Nat × GoString) :=
  match s with
  | c0 :: c1 :: h0 :: h1 :: h2 :: h3 :: rest =>
    if c0 = 0x5C ∧ c1 = 0x75 then
      match unhex h0, unhex h1, unhex h2, unhex h3 with
      | some a, some b, some c, some d => some (a * 4096 + b * 256 + c * 16 + d, rest)
      | _, _, _, _ => none
    else none
  | _ => none

/-- The byte a one-letter escape stands for (`\"`, `\\`, `\/`, `\b`, `\f`, `\n`,
`\r`, `\t`); `none` for any other letter, which the scanner rejects. -/
def unescape (e : Nat) : Option Nat :=
  if e = 0x22 ∨ e = 0x5C ∨ e = 0x2F then some e
  else if e = 0x62 then some 0x08
  else if e = 0x66 then some 0x0C
  else if e = 0x6E then some 0x0A
  else if e = 0x72 then some 0x0D
  else if e = 0x74 then some 0x09
  else none

/-- Prepend decoded bytes to the result of decoding the rest of a string. -/
def prepend (out : GoString) : Option (GoString × GoString) → Option (GoString × GoString)
  | none => none
  | some (s, rest) => some (out ++ s, rest)

/-- The scanner's string states followed by `unquote`: `s` starts right after the
opening quote; the result is the decoded string and what follows the closing quote.
A raw control character, a bad escape or a missing closing quote is a syntax error
(`none`); an unpaired surrogate escape and an ill-formed byte decode to U+FFFD.
`fuel` bounds the number of iterations. -/
def unquoteBody : Nat → GoString → Option (GoString × GoString)
  | 0, _ => none
  | _ + 1, [] => none
  | fuel + 1, c :: rest =>
    if c = 0x22 then some ([], rest)
    else if c = 0x5C then
      match rest with
      | [] => none
      | e :: rest1 =>
        if e = 0x75 then
          match getu4 (c :: rest) with
          | none => none
          | some (rr, rest2) =>
            if 0xD800 ≤ rr ∧ rr ≤ 0xDFFF then
              match getu4 rest2 with
              | some (rr1, rest3) =>
                if rr < 0xDC00 ∧ 0xDC00 ≤ rr1 ∧ rr1 ≤ 0xDFFF then
                  prepend (encodeRune ((rr - 0xD800) * 1024 + (rr1 - 0xDC00) + 0x10000))
                    (unquoteBody fuel rest3)
                else prepend (encodeRune RuneError) (unquoteBody fuel rest2)
              | none => prepend (encodeRune RuneError) (unquoteBody fuel rest2)
            else prepend (encodeRune rr) (unquoteBody fuel rest2)
        else
          match unescape e with
          | some b => prepend [b] (unquoteBody fuel rest1)
          | none => none
    else if c < 0x20 then none
    else if c < 0x80 then prepend [c] (unquoteBody fuel rest)
    else
      let d := decodeRune (c :: rest)
      prepend (encodeRune d.1) (unquoteBody fuel ((c :: rest).drop d.2))

/-- A JSON string literal at the head of `s` (which starts after the opening quote). -/
def scanString (s : GoString) : Option (GoString × GoString) := unquoteBody s.length s

/-- The exponent as `strconv` reads it: digits are accumulated while the value is
below 10000. -/
def expValue (digits : GoString) : Nat :=
  digits.foldl (fun e d => if e < 10000 then e * 10 + (d - 0x30) else e) 0

/-- The decimal value of a digit string. -/
def decValue (digits : GoString) : Nat := digits.foldl (fun m d => m * 10 + (d - 0x30)) 0

/-- The least value that rounds to infinity as a `float64`: `2^1024 - 2^970`, half an
ulp above the largest finite `float64`. -/
def float64Overflow : Nat :=
  179769313486231580793728971405303415079934132710037826936173778980444968292764750946649017977587207096330286416692887910946555547851940402630657488671505820681908902000708383676273854845817711531764475730270069855571366959622842914819860834936475292719074168444365510704342711559699508093042880177904174497792

/-- Whether `strconv.ParseFloat(_, 64)` reports a range error for the number with
mantissa digits `intDigits.fracDigits` and exponent `expDigits` (negative when
`expNeg`): the value rounds to infinity, that is, it is at least `float64Overflow`.
The value is computed exactly; `strconv` keeps 800 digits of the mantissa, which makes
no difference to a literal it reports as out of range. -/
def floatOverflows (intDigits fracDigits : GoString) (expNeg : Bool) (expDigits : GoString) :
    Bool :=
  let m := decValue (intDigits ++ fracDigits)
  let e := expValue expDigits
  let up := if expNeg then 0 else e
  let down := (if expNeg then e else 0) + fracDigits.length
  decide (float64Overflow ≤ m * 10 ^ up / 10 ^ down)

/-- The integer part of a number: `0`, or a non-zero digit followed by digits. -/
def scanInt (s : GoString) : Option (GoString × GoString) :=
  match s with
  | [] => none
  | d :: rest =>
    if d = 0x30 then some ([d], rest)
    else if isDigit d then some (d :: (rest.span isDigit).1, (rest.span isDigit).2)
    else none

/-- The optional fraction of a number: a dot followed by at least one digit. -/
def scanFrac (s : GoString) : Option (GoString × GoString) :=
  match s with
  | [] => some ([], [])
  | c :: rest =>
    if c = 0x2E then
      (if (rest.span isDigit).1 = [] then none else some (rest.span isDigit))
    else some ([], c :: rest)

/-- The optional exponent of a number: `e` or `E`, an optional sign and at least one
digit. The result is the sign, the digits and the rest. -/
def scanExp (s : GoString) : Option (Bool × GoString × GoString) :=
  match s with
  | [] => some (false, [], [])
  | c :: rest =>
    if c = 0x65 ∨ c = 0x45 then
      let neg := rest.head? = some 0x2D
      let signed := rest.head? = some 0x2D ∨ rest.head? = some 0x2B
      let digits := if signed then rest.tail else rest
      if (digits.span isDigit).1 = [] then none
      else some (neg, (digits.span isDigit).1, (digits.span isDigit).2)
    else some (false, [], c :: rest)

/-- A JSON number at the head of `s` as the scanner delimits it and `convertNumber`
stores it in an `interface{}`: the literal and what follows it; `none` on a syntax
error and on a `float64` range error, for both of which `Decode` returns an error. -/
def scanNumber (s : GoString) : Option (JVal × GoString) :=
  let neg := s.head? = some 0x2D
  match scanInt (if neg then s.tail else s) with
  | none => none
  | some (intDigits, rest) =>
    match scanFrac rest with
    | none => none
    | some (fracDigits, rest1) =>
      match scanExp rest1 with
      | none => none
      | some (expNeg, expDigits, rest2) =>
        if floatOverflows intDigits fracDigits expNeg expDigits then none
        else some (.num (s.take (s.length - rest2.length)), rest2)

/-- Drop the literal `name` from the head of `s`. -/
def dropLiteral : GoString → GoString → Option GoString
  | [], s => some s
  | _ :: _, [] => none
  | a :: name, b :: s => if a = b then dropLiteral name s else none

mutual
/-- One JSON value at the head of `s` (white space already skipped) and what follows
it; `none` on a syntax error, on nesting deeper than `maxNestingDepth` and on a number
out of range. `depth` counts the enclosing arrays and objects, `fuel` bounds the
recursion. -/
def parseValue : Nat → Nat → GoString → Option (JVal × GoString)
  | 0, _, _ => none
  | _ + 1, _, [] => none
  | fuel + 1, depth, c :: rest =>
    if c = 0x7B then
      if maxNestingDepth < depth + 1 then none
      else
        match skipSpace rest with
        | [] => none
        | c1 :: rest1 =>
          if c1 = 0x7D then some (.obj [], rest1)
          else
            match parseMembers fuel (depth + 1) (c1 :: rest1) with
            | none => none
            | some (ms, rest2) => some (.obj ms, rest2)
    else if c = 0x5B then
      if maxNestingDepth < depth + 1 then none
      else
        match skipSpace rest with
        | [] => none
        | c1 :: rest1 =>
          if c1 = 0x5D then some (.arr [], rest1)
          else
            match parseElems fuel (depth + 1) (c1 :: rest1) with
            | none => none
            | some (vs, rest2) => some (.arr vs, rest2)
    else if c = 0x22 then
      match scanString rest with
      | none => none
      | some (s, rest1) => some (.str s, rest1)
    else if c = 0x74 then (dropLiteral (lit "true") (c :: rest)).map (fun r => (.bool true, r))
    else if c = 0x66 then (dropLiteral (lit "false") (c :: rest)).map (fun r => (.bool false, r))
    else if c = 0x6E then (dropLiteral (lit "null") (c :: rest)).map (fun r => (.null, r))
    else scanNumber (c :: rest)
/-- The elements of an array after the opening bracket, up to the closing one. -/
def parseElems : Nat → Nat → GoString → Option (List JVal × GoString)
  | 0, _, _ => none
  | fuel + 1, depth, s =>
    match parseValue fuel depth s with
    | none => none
    | some (v, rest) =>
      match skipSpace rest with
      | [] => none
      | c :: rest1 =>
        if c = 0x2C then
          match parseElems fuel depth (skipSpace rest1) with
          | none => none
          | some (vs, rest2) => some (v :: vs, rest2)
        else if c = 0x5D then some ([v], rest1)
        else none
/-- The members of an object after the opening brace, up to the closing one. -/
def parseMembers : Nat → Nat → GoString → Option (List (GoString × JVal) × GoString)
  | 0, _, _ => none
  | _ + 1, _, [] => none
  | fuel + 1, depth, q :: rest =>
    if q = 0x22 then
      match scanString rest with
      | none => none
      | some (key, rest1) =>
        match skipSpace rest1 with
        | [] => none
        | c :: rest2 =>
          if c = 0x3A then
            match parseValue fuel depth (skipSpace rest2) with
            | none => none
            | some (v, rest3) =>
              match skipSpace rest3 with
              | [] => none
              | c1 :: rest4 =>
                if c1 = 0x2C then
                  match parseMembers fuel depth (skipSpace rest4) with
                  | none => none
                  | some (ms, rest5) => some ((key, v) :: ms, rest5)
                else if c1 = 0x7D then some ([(key, v)], rest4)
                else none
          else none
    else none
end

/-- The first JSON value of `body`, as `Decoder.Decode` reads it: leading white
space is skipped and what follows the value is left unread. -/
def decodeValue (body : GoString) : Option JVal :=
  (parseValue (2 * body.length + 2) 0 (skipSpace body)).map Prod.fst

/-- A Go `map[string]interface{}`: the entries in the order they were stored. -/
abbrev GoMap := List (GoString × JVal)

/-- The expression `m[key]`: the value last stored under `key`, the `nil` interface
when the key is absent (also for a nil map). -/
def GoMap.index (m : GoMap) (key : GoString) : JVal :=
  match (m.filter (fun e => e.1 == key)).getLast? with
  | some e => e.2
  | none => .null

/-- The call `json.NewDecoder(body).Decode(&result)` for
`var result map[string]interface{}`: `some m` when `Decode` returns nil, `none` when
it returns an error. An object fills the map; `null` leaves the map nil (no
entries); any other value is an `UnmarshalTypeError`. -/
def decodeMap (body : GoString) : Option GoMap :=
  match decodeValue body with
  | some (.obj members) => some members
  | some .null => some []
  | _ => none

/-! ## The client, requests and responses (`go-elasticsearch`, `esapi`) -/

/-- The `esapi` request structs the programs build, with the fields they set:
`IndexRequest`, `BulkRequest`, `GetRequest`, `SearchRequest`, `DeleteRequest`,
`IndicesExistsRequest` and `IndicesCreateRequest`. -/
inductive Request where
  | Index (Index DocumentID Body Refresh : GoString)
  | Bulk (Body Refresh : GoString)
  | Get (Index DocumentID : GoString)
  | Search (Index : List GoString) (Body : GoString)
  | Delete (Index DocumentID Refresh : GoString)
  | IndicesExists (Index : List GoString)
  | IndicesCreate (Index Body : GoString)
deriving DecidableEq

/-- The struct `esapi.Response`: the status code and the body. -/
structure Response where
  StatusCode : Int
  Body : GoString
deriving DecidableEq

/-- The method `Response.IsError`: the status code is above 299. -/
def Response.IsError (res : Response) : Bool := decide (res.StatusCode > 299)

/-- What `req.Do` returns: the transport error (its text) or the response. -/
abbrev DoResult := Except String Response

/-- The client `*elasticsearch.Client` with the backend it talks to: `perform` answers
a request in backend state `σ` and gives the next backend state. -/
structure Client (σ : Type) where
  perform : Request → σ → DoResult × σ

/-- The world a program runs in: the backend state and the requests issued so far. -/
structure World (σ : Type) where
  backend : σ
  sent : List Request

/-- The call `req.Do(context.Background(), es)`: the request is issued (and logged)
and the backend answers. -/
def Request.Do {σ : Type} (req : Request) (es : Client σ) (w : World σ) :
    DoResult × World σ :=
  ((es.perform req w.backend).1, ⟨(es.perform req w.backend).2, w.sent ++ [req]⟩)

/-- An operand of `fmt.Errorf` or `log.Fatalf`. -/
inductive FmtArg where
  | str (s : GoString)
  | status (code : Int)
  | err (text : String)
  | decodeErr
  | value (v : JVal)

/-- An `error` made by `fmt.Errorf(format, args...)`; also the message of `log.Fatalf`. -/
structure GoError where
  format : String
  args : List FmtArg

/-- How a call ends: it returns, or a failed type assertion panics. -/
inductive Outcome (α : Type) where
  | ret (a : α)
  | panic

/-! ## `insert/insert_person.go` -/

/-- The function `insertSingle`: the returned `error` (`none` is nil) and the world
after the call. -/
def insertSingle {σ : Type} (es : Client σ) (indexName : GoString) (person : Person)
    (w : World σ) : Option GoError × World σ :=
  let docBytes := marshalPerson person
  let req := Request.Index indexName person.ID docBytes (lit "true")
  match req.Do es w with
  | (.error err, w1) => (some ⟨"执行插入请求失败: %v", [.err err]⟩, w1)
  | (.ok res, w1) =>
    if res.IsError then (some ⟨"插入失败，状态: %s", [.status res.StatusCode]⟩, w1)
    else (none, w1)

/-- The two `WriteString` calls of one iteration of the loop of `insertBatch`: the
action line for `p` and the document line, appended to `bulkBody`. -/
def bulkStep (indexName : GoString) (bulkBody : GoString) (p : Person) : GoString :=
  let metaBytes := marshalSingleton (lit "index")
    (marshalStringMap [(lit "_index", indexName), (lit "_id", p.ID)])
  let bulkBody := bulkBody ++ (metaBytes ++ lit "\n")
  let docBytes := marshalPerson p
  bulkBody ++ (docBytes ++ lit "\n")

/-- The function `insertBatch`: the returned `error` and the world after the call. -/
def insertBatch {σ : Type} (es : Client σ) (indexName : GoString) (persons : List Person)
    (w : World σ) : Option GoError × World σ :=
  let bulkBody := persons.foldl (bulkStep indexName) []
  let req := Request.Bulk bulkBody (lit "true")
  match req.Do es w with
  | (.error err, w1) => (some ⟨"执行批量请求失败: %v", [.err err]⟩, w1)
  | (.ok res, w1) =>
    if res.IsError then (some ⟨"批量插入失败，状态: %s", [.status res.StatusCode]⟩, w1)
    else (none, w1)

/-! ## `update/update_person.go` -/

/-- The function `fullUpdate`: the returned `error` and the world after the call. -/
def fullUpdate {σ : Type} (es : Client σ) (indexName : GoString) (person : Person)
    (w : World σ) : Option GoError × World σ :=
  let docBytes := marshalPerson person
  let req := Request.Index indexName person.ID docBytes (lit "true")
  match req.Do es w with
  | (.error err, w1) => (some ⟨"执行更新请求失败: %v", [.err err]⟩, w1)
  | (.ok res, w1) =>
    if res.IsError then (some ⟨"更新失败，状态: %s", [.status res.StatusCode]⟩, w1)
    else (none, w1)

/-! ## `delete/delete_person.go` -/

/-- The function `deleteByID`: the returned `error` and the world after the call. -/
def deleteByID {σ : Type} (es : Client σ) (indexName id : GoString) (w : World σ) :
    Option GoError × World σ :=
  let req := Request.Delete indexName id (lit "true")
  match req.Do es w with
  | (.error err, w1) => (some ⟨"执行删除请求失败: %v", [.err err]⟩, w1)
  | (.ok res, w1) =>
    if res.StatusCode = 404 then (some ⟨"ID 为 %s 的数据不存在", [.str id]⟩, w1)
    else if res.IsError then (some ⟨"删除失败，状态: %s", [.status res.StatusCode]⟩, w1)
    else (none, w1)

/-! ## `query/query_person.go` -/

/-- The type assertion `v.(map[string]interface{})`; `none` is the panic. -/
def JVal.assertMap : JVal → Option GoMap
  | .obj members => some members
  | _ => none

/-- The type assertion `v.(string)`; `none` is the panic. -/
def JVal.assertString : JVal → Option GoString
  | .str s => some s
  | _ => none

/-- The function `queryByID`: the returned pair `(Person, error)`, or a panic, and the world after
the call. -/
def queryByID {σ : Type} (es : Client σ) (indexName id : GoString) (w : World σ) :
    Outcome (Person × Option GoError) × World σ :=
  let person : Person := ⟨[], []⟩
  let req := Request.Get indexName id
  match req.Do es w with
  | (.error err, w1) => (.ret (person, some ⟨"执行查询失败: %v", [.err err]⟩), w1)
  | (.ok res, w1) =>
    if res.StatusCode = 404 then (.ret (person, none), w1)
    else if res.IsError then
      (.ret (person, some ⟨"查询错误: %s", [.status res.StatusCode]⟩), w1)
    else
      match decodeMap res.Body with
      | none => (.ret (person, some ⟨"解析结果失败: %v", [.decodeErr]⟩), w1)
      | some result =>
        match (result.index (lit "_source")).assertMap with
        | none => (.panic, w1)
        | some source =>
          match (source.index (lit "id")).assertString with
          | none => (.panic, w1)
          | some personID =>
            match (source.index (lit "name")).assertString with
            | none => (.panic, w1)
            | some personName => (.ret (⟨personID, personName⟩, none), w1)

/-- An element of `SearchResult.Hits.Hits`. -/
structure Hit where
  Source : Person
deriving DecidableEq

/-- The inner struct `Hits` of `SearchResult`. -/
structure SearchHits where
  Hits : List Hit
deriving DecidableEq

/-- The struct `SearchResult` of the source. -/
structure SearchResult where
  Hits : SearchHits
deriving DecidableEq

/-- The request body of `queryByName`: `json.Marshal` of the nested map literal
`query` with the single path `query.match.name`. -/
def matchQuery (name : GoString) : GoString :=
  marshalSingleton (lit "query")
    (marshalSingleton (lit "match") (marshalSingleton (lit "name") (appendString name)))

/-- The function `queryByName`: the returned pair `([]Person, error)` and the world after the call.
`decode` is `json.NewDecoder(body).Decode(&result)` for `var result SearchResult`
(`none` when it returns an error); decoding into the struct is left to the
library. -/
def queryByName {σ : Type} (es : Client σ) (decode : GoString → Option SearchResult)
    (indexName name : GoString) (w : World σ) : (List Person × Option GoError) × World σ :=
  let persons : List Person := []
  let queryBytes := matchQuery name
  let req := Request.Search [indexName] queryBytes
  match req.Do es w with
  | (.error err, w1) => ((persons, some ⟨"执行搜索失败: %v", [.err err]⟩), w1)
  | (.ok res, w1) =>
    if res.IsError then ((persons, some ⟨"搜索错误: %s", [.status res.StatusCode]⟩), w1)
    else
      match decode res.Body with
      | none => ((persons, some ⟨"解析结果失败: %v", [.decodeErr]⟩), w1)
      | some result =>
        ((result.Hits.Hits.foldl (fun persons hit => persons ++ [hit.Source]) persons, none), w1)

/-! ## `create/create_person_index.go` -/

/-- The constant `indexMapping`. -/
def indexMapping : String :=
  "\n\x7b\n  \"settings\": \x7b\n    \"number_of_shards\": 1,    // 数据量较小时1个主分片足够\n    \"number_of_replicas\": 0   // 测试环境可关闭副本,生产环境建议设为1\n  \x7d,\n  \"mappings\": \x7b\n    \"properties\": \x7b\n      \"id\": \x7b\n        \"type\": \"keyword\"  // ID通常用于精确匹配 如查询、更新 ,用keyword类型\n      \x7d,\n      \"name\": \x7b\n        \"type\": \"text\",    // 姓名需要支持分词查询 如搜索\"张\"能找到\"张三\" \n        \"analyzer\": \"ik_max_word\",  // 中文分词 需安装IK分词器 \n        \"fields\": \x7b\n          \"keyword\": \x7b\n            \"type\": \"keyword\"  // 子字段用于精确匹配 如按全名筛选 \n          \x7d\n        \x7d\n      \x7d\n    \x7d\n  \x7d\n\x7d\n"

/-- How `main` ends: it runs to its end (having printed the response), `log.Fatalf`
prints a message and exits, or a failed type assertion panics. -/
inductive Exit where
  | done (result : GoMap)
  | fatal (msg : GoError)
  | panic

/-- The function `main` of `create_person_index.go`, from the existence check on (the client is
built from a fixed, well-formed configuration). -/
def createMain {σ : Type} (es : Client σ) (w : World σ) : Exit × World σ :=
  let indexName := lit "person"
  let existsReq := Request.IndicesExists [indexName]
  match existsReq.Do es w with
  | (.error err, w1) => (.fatal ⟨"检查索引是否存在失败: %v", [.err err]⟩, w1)
  | (.ok existsRes, w1) =>
    if existsRes.StatusCode = 200 then
      (.fatal ⟨"索引 \x27%s\x27 已存在,无需重复创建", [.str indexName]⟩, w1)
    else if existsRes.StatusCode ≠ 404 then
      (.fatal ⟨"检查索引状态异常: %s", [.status existsRes.StatusCode]⟩, w1)
    else
      let createReq := Request.IndicesCreate indexName (lit indexMapping)
      match createReq.Do es w1 with
      | (.error err, w2) => (.fatal ⟨"创建索引失败: %v", [.err err]⟩, w2)
      | (.ok createRes, w2) =>
        match decodeMap createRes.Body with
        | none => (.fatal ⟨"解析响应失败: %v", [.decodeErr]⟩, w2)
        | some result =>
          if createRes.IsError then
            match (result.index (lit "error")).assertMap with
            | none => (.panic, w2)
            | some e => (.fatal ⟨"创建失败: %s", [.value (e.index (lit "reason"))]⟩, w2)
          else (.done result, w2)

/-! ## Reference formats and test doubles -/

/-- The pair of lines of the bulk format for one person, as the Bulk API documents
it: the action line (an object with the single member `index`, itself an object
with the members `_id` and `_index`), a newline, the document and a newline. The
loop of `insertBatch` is compared with it. -/
def bulkPair (indexName : GoString) (p : Person) : GoString :=
  lit "\x7b\"index\":\x7b\"_id\":" ++ appendString p.ID ++ lit ",\"_index\":"
    ++ appendString indexName ++ lit "\x7d\x7d" ++ [0x0A] ++ marshalPerson p ++ [0x0A]

/-- A backend without state that answers every request with the same response. -/
def constBackend (res : Response) : Client Unit := ⟨fun _ _ => (.ok res, ())⟩

/-- The world before any request, over the stateless backend. -/
def emptyWorld : World Unit := ⟨(), []⟩

/-- A bulk response with status 200 whose second item failed with status 400. -/
def partialFailure : Response :=
  ⟨200, lit "\x7b\"errors\":true,\"items\":[\x7b\"index\":\x7b\"_id\":\"p1002\",\"status\":201\x7d\x7d,\x7b\"index\":\x7b\"_id\":\"\",\"status\":400\x7d\x7d]\x7d"⟩

/-- A backend that records the indices created. The existence check answers 200 when
every index asked for is recorded and 404 otherwise; the creation of an index not yet
recorded is acknowledged and recorded, that of a recorded one is refused with 400. -/
def recordingBackend : Client (List GoString) :=
  ⟨fun req indices =>
    match req with
    | .IndicesExists names =>
      (.ok ⟨if names.all (fun n => decide (n ∈ indices)) then 200 else 404, []⟩, indices)
    | .IndicesCreate name _ =>
      if name ∈ indices then
        (.ok ⟨400, lit "\x7b\"error\":\x7b\"reason\":\"index already exists\"\x7d,\"status\":400\x7d"⟩,
          indices)
      else (.ok ⟨200, lit "\x7b\"acknowledged\":true\x7d"⟩, name :: indices)
    | _ => (.error "unsupported request", indices)⟩

/-- A lookup response with status 200 whose `_source` is, byte for byte, the body
that `insertSingle` sends for `p`. -/
def storedDocResponse (p : Person) : Response :=
  ⟨200, lit "\x7b\"_index\":\"person\",\"found\":true,\"_source\":" ++ marshalPerson p
    ++ lit "\x7d"⟩

/-- A person whose name is the single byte 0xFF, which is not well-formed UTF-8. -/
def invalidNamePerson : Person := ⟨lit "p1001", [0xFF]⟩

/-! ## Theorems -/



theorem do_fst {σ : Type} (req : Request) (es : Client σ) (w : World σ) :
    (req.Do es w).1 = (es.perform req w.backend).1 := rfl

theorem do_snd {σ : Type} (req : Request) (es : Client σ) (w : World σ) :
    (req.Do es w).2 = ⟨(es.perform req w.backend).2, w.sent ++ [req]⟩ := rfl

theorem do_eq {σ : Type} (req : Request) (es : Client σ) (w : World σ) (r : DoResult) (b : σ)
    (h : es.perform req w.backend = (r, b)) :
    req.Do es w = (r, ⟨b, w.sent ++ [req]⟩) := by
  simp [Request.Do, h]

theorem isError_iff (res : Response) : res.IsError = true ↔ 299 < res.StatusCode := by
  simp [Response.IsError]

/-- C7. `deleteByID` returns a nil error exactly when the transport call succeeded
with a status that is neither 404 nor above 299; on a 404 response it returns the
not-found error that names the id, whatever the backend state, so deleting an
absent id fails the same way each time. -/
theorem deleteByID_nil_iff {σ : Type} (es : Client σ) (indexName id : GoString) (w : World σ) :
    ((deleteByID es indexName id w).1 = none ↔
        ∃ res b, es.perform (Request.Delete indexName id (lit "true")) w.backend = (.ok res, b)
          ∧ res.StatusCode ≠ 404 ∧ ¬ 299 < res.StatusCode)
    ∧ (∀ res b, es.perform (Request.Delete indexName id (lit "true")) w.backend = (.ok res, b) →
        res.StatusCode = 404 →
        (deleteByID es indexName id w).1 = some ⟨"ID 为 %s 的数据不存在", [.str id]⟩) := by
  constructor
  · rcases h : es.perform (Request.Delete indexName id (lit "true")) w.backend with ⟨r, b⟩
    cases r with
    | error e => simp [deleteByID, do_eq _ _ _ _ _ h]
    | ok res =>
      simp only [deleteByID, do_eq _ _ _ _ _ h]
      by_cases h404 : res.StatusCode = 404
      · simp [h404]
      · by_cases herr : res.IsError = true
        · have := (isError_iff res).1 herr
          simp [h404, herr, this]
        · have : res.StatusCode ≤ 299 := by
            by_contra hh
            exact herr ((isError_iff res).2 (by omega))
          simp [h404, herr, this]
  · intro res b h h404
    simp [deleteByID, do_eq _ _ _ _ _ h, h404]


/-- C2. When the backend answers the point lookup with status 404, `queryByID`
returns the empty `Person` with a nil error, after that single request. -/
theorem queryByID_not_found {σ : Type} (es : Client σ) (indexName id : GoString)
    (w : World σ) (res : Response) (b : σ)
    (hdo : es.perform (Request.Get indexName id) w.backend = (.ok res, b))
    (h404 : res.StatusCode = 404) :
    queryByID es indexName id w
      = (.ret (⟨[], []⟩, none), ⟨b, w.sent ++ [Request.Get indexName id]⟩) := by
  simp [queryByID, do_eq _ _ _ _ _ hdo, h404]

/-- Witness of C2: a backend that answers 404 to the lookup of `p1001` in `person`. -/
theorem queryByID_not_found_witness :
    (constBackend ⟨404, lit "\x7b\"found\":false\x7d"⟩).perform
        (Request.Get (lit "person") (lit "p1001")) emptyWorld.backend
        = (.ok ⟨404, lit "\x7b\"found\":false\x7d"⟩, ())
      ∧ queryByID (constBackend ⟨404, lit "\x7b\"found\":false\x7d"⟩) (lit "person")
          (lit "p1001") emptyWorld
        = (.ret (⟨[], []⟩, none), ⟨(), emptyWorld.sent ++ [Request.Get (lit "person") (lit "p1001")]⟩) :=
  ⟨rfl, queryByID_not_found _ _ _ _ _ _ rfl rfl⟩

/-- Shared by the write operations: an index request is answered without error
exactly when the transport call succeeds with a status of at most 299. -/
theorem write_nil_iff {σ : Type} (es : Client σ) (req : Request) (w : World σ)
    (f g : String) :
    ((match req.Do es w with
      | (.error err, w1) => ((some ⟨f, [.err err]⟩ : Option GoError), w1)
      | (.ok res, w1) =>
        if res.IsError then (some ⟨g, [.status res.StatusCode]⟩, w1) else (none, w1)).1 = none
      ↔ ∃ res b, es.perform req w.backend = (.ok res, b) ∧ res.StatusCode ≤ 299) := by
  rcases h : es.perform req w.backend with ⟨r, b⟩
  cases r with
  | error e => simp [do_eq _ _ _ _ _ h]
  | ok res =>
    simp only [do_eq _ _ _ _ _ h]
    by_cases herr : res.IsError = true
    · have := (isError_iff res).1 herr
      simp [herr, this]
    · have : res.StatusCode ≤ 299 := by
        by_contra hh
        exact herr ((isError_iff res).2 (by omega))
      simp [herr, this]

/-- Shared by the write operations: the world after the single request. -/
theorem write_world {σ : Type} (es : Client σ) (req : Request) (w : World σ)
    (f g : String) :
    (match req.Do es w with
      | (.error err, w1) => ((some ⟨f, [.err err]⟩ : Option GoError), w1)
      | (.ok res, w1) =>
        if res.IsError then (some ⟨g, [.status res.StatusCode]⟩, w1) else (none, w1)).2
      = ⟨(es.perform req w.backend).2, w.sent ++ [req]⟩ := by
  rcases h : es.perform req w.backend with ⟨r, b⟩
  cases r with
  | error e => simp [do_eq _ _ _ _ _ h]
  | ok res =>
    simp only [do_eq _ _ _ _ _ h]
    by_cases herr : res.IsError = true <;> simp [herr]

/-- C9. `fullUpdate` and `insertSingle` issue the same single request (same index,
document id `person.ID`, body `json.Marshal(person)`, refresh `true`), leave the same
world behind, and one returns a nil error exactly when the other does. -/
theorem fullUpdate_insertSingle_equiv {σ : Type} (es : Client σ) (indexName : GoString)
    (person : Person) (w : World σ) :
    (fullUpdate es indexName person w).2 = (insertSingle es indexName person w).2
    ∧ (fullUpdate es indexName person w).2.sent
        = w.sent ++ [Request.Index indexName person.ID (marshalPerson person) (lit "true")]
    ∧ ((fullUpdate es indexName person w).1 = none
        ↔ (insertSingle es indexName person w).1 = none) := by
  refine ⟨?_, ?_, ?_⟩
  · simp only [fullUpdate, insertSingle, write_world]
  · simp only [fullUpdate, write_world]
  · simp only [fullUpdate, insertSingle, write_nil_iff]

/-- C3, as amended. `insertSingle` does not validate the id: for every record,
with an empty id or not, it issues exactly one index request, whose document id is
the id of the record, and it returns a nil error exactly when the transport call
succeeds with a status of at most 299. -/
theorem insertSingle_one_request {σ : Type} (es : Client σ) (indexName : GoString)
    (person : Person) (w : World σ) :
    (insertSingle es indexName person w).2.sent
        = w.sent ++ [Request.Index indexName person.ID (marshalPerson person) (lit "true")]
    ∧ ((insertSingle es indexName person w).1 = none
        ↔ ∃ res b, es.perform
              (Request.Index indexName person.ID (marshalPerson person) (lit "true")) w.backend
            = (.ok res, b) ∧ res.StatusCode ≤ 299) := by
  refine ⟨?_, ?_⟩
  · simp only [insertSingle, write_world]
  · simp only [insertSingle, write_nil_iff]

/-- Counterexample to C3: for a record with an empty id and a backend that answers
201, `insertSingle` issues the index request and returns a nil error. -/
theorem insertSingle_empty_id_accepted :
    (insertSingle (constBackend ⟨201, []⟩) (lit "person") ⟨[], lit "张三"⟩ emptyWorld).1 = none
    ∧ (insertSingle (constBackend ⟨201, []⟩) (lit "person") ⟨[], lit "张三"⟩ emptyWorld).2.sent
        = [Request.Index (lit "person") [] (marshalPerson ⟨[], lit "张三"⟩) (lit "true")] :=
  ⟨rfl, rfl⟩

/-- Witness of C7: a backend that answers 404 to the delete of `p1001`, and one that
answers 200. -/
theorem deleteByID_nil_iff_witness :
    (deleteByID (constBackend ⟨404, []⟩) (lit "person") (lit "p1001") emptyWorld).1
        = some ⟨"ID 为 %s 的数据不存在", [.str (lit "p1001")]⟩
    ∧ (deleteByID (constBackend ⟨200, []⟩) (lit "person") (lit "p1001") emptyWorld).1 = none :=
  ⟨(deleteByID_nil_iff (constBackend ⟨404, []⟩) (lit "person") (lit "p1001") emptyWorld).2
      ⟨404, []⟩ () rfl rfl,
    (deleteByID_nil_iff (constBackend ⟨200, []⟩) (lit "person") (lit "p1001") emptyWorld).1.2
      ⟨⟨200, []⟩, (), rfl, by decide, by decide⟩⟩

/-! ### UTF-8 decoding, case by case -/

/-- What `decodeRune` returns on a string that starts with a non-ASCII byte: the
error, or one of the three multi-byte forms. -/
theorem decodeRune_inv (b : Nat) (rest : GoString) (hb : ¬ b < 0x80) :
    decodeRune (b :: rest) = (RuneError, 1)
    ∨ (∃ b1 t, rest = b1 :: t ∧ 0xC2 ≤ b ∧ b < 0xE0 ∧ 0x80 ≤ b1 ∧ b1 ≤ 0xBF
        ∧ decodeRune (b :: rest) = ((b - 0xC0) * 64 + (b1 - 0x80), 2))
    ∨ (∃ b1 b2 t, rest = b1 :: b2 :: t ∧ 0xE0 ≤ b ∧ b < 0xF0
        ∧ (b = 0xE0 → 0xA0 ≤ b1) ∧ (b = 0xED → b1 ≤ 0x9F)
        ∧ 0x80 ≤ b1 ∧ b1 ≤ 0xBF ∧ 0x80 ≤ b2 ∧ b2 ≤ 0xBF
        ∧ decodeRune (b :: rest)
            = ((b - 0xE0) * 4096 + (b1 - 0x80) * 64 + (b2 - 0x80), 3))
    ∨ (∃ b1 b2 b3 t, rest = b1 :: b2 :: b3 :: t ∧ 0xF0 ≤ b ∧ b < 0xF5
        ∧ (b = 0xF0 → 0x90 ≤ b1) ∧ (b = 0xF4 → b1 ≤ 0x8F)
        ∧ 0x80 ≤ b1 ∧ b1 ≤ 0xBF ∧ 0x80 ≤ b2 ∧ b2 ≤ 0xBF ∧ 0x80 ≤ b3 ∧ b3 ≤ 0xBF
        ∧ decodeRune (b :: rest)
            = ((b - 0xF0) * 262144 + (b1 - 0x80) * 4096 + (b2 - 0x80) * 64 + (b3 - 0x80), 4)) := by
  unfold decodeRune
  simp only [hb, if_false]
  by_cases h1 : b < 0xC2
  · simp [h1]
  by_cases h2 : b < 0xE0
  · simp only [h1, h2, if_false, if_true]
    cases rest with
    | nil => simp
    | cons b1 t =>
      by_cases hc : isCont b1 = true
      · right; left
        simp only [isCont, Bool.and_eq_true, decide_eq_true_eq] at hc
        refine ⟨b1, t, rfl, by omega, trivial, hc.1, hc.2, ?_⟩
        simp [isCont, hc.1, hc.2]
      · simp [hc]
  by_cases h3 : b < 0xF0
  · simp only [h1, h2, h3, if_false, if_true]
    rcases rest with _ | ⟨b1, _ | ⟨b2, t⟩⟩
    · simp
    · simp
    · by_cases hc : (if b = 0xE0 then 0xA0 else 0x80) ≤ b1
          ∧ b1 ≤ (if b = 0xED then 0x9F else 0xBF) ∧ isCont b2 = true
      · right; right; left
        obtain ⟨hlo, hhi, hc2⟩ := hc
        simp only [isCont, Bool.and_eq_true, decide_eq_true_eq] at hc2
        refine ⟨b1, b2, t, rfl, by omega, trivial, ?_, ?_, ?_, ?_, hc2.1, hc2.2, ?_⟩
        · intro hb0; simpa [hb0] using hlo
        · intro hb0; simpa [hb0] using hhi
        · split at hlo <;> omega
        · split at hhi <;> omega
        · simp [isCont, hlo, hhi, hc2.1, hc2.2]
      · simp [hc]
  by_cases h4 : b < 0xF5
  · simp only [h1, h2, h3, h4, if_false, if_true]
    rcases rest with _ | ⟨b1, _ | ⟨b2, _ | ⟨b3, t⟩⟩⟩
    · simp
    · simp
    · simp
    · by_cases hc : (if b = 0xF0 then 0x90 else 0x80) ≤ b1
          ∧ b1 ≤ (if b = 0xF4 then 0x8F else 0xBF) ∧ isCont b2 = true ∧ isCont b3 = true
      · right; right; right
        obtain ⟨hlo, hhi, hc2, hc3⟩ := hc
        simp only [isCont, Bool.and_eq_true, decide_eq_true_eq] at hc2 hc3
        refine ⟨b1, b2, b3, t, rfl, by omega, trivial, ?_, ?_, ?_, ?_, hc2.1, hc2.2, hc3.1, hc3.2, ?_⟩
        · intro hb0; simpa [hb0] using hlo
        · intro hb0; simpa [hb0] using hhi
        · split at hlo <;> omega
        · split at hhi <;> omega
        · simp [isCont, hlo, hhi, hc2.1, hc2.2, hc3.1, hc3.2]
      · simp [hc]
  · simp [h1, h2, h3, h4]

/-- The bytes of a well-formed multi-byte encoding are all non-ASCII. -/
theorem decodeRune_take_ge (b : Nat) (rest : GoString) (hb : ¬ b < 0x80) :
    ∀ x ∈ (b :: rest).take (decodeRune (b :: rest)).2, 0x80 ≤ x := by
  intro x hx
  rcases decodeRune_inv b rest hb with h | ⟨b1, t, rfl, _, _, _, _, h⟩
      | ⟨b1, b2, t, rfl, _, _, _, _, _, _, _, _, h⟩
      | ⟨b1, b2, b3, t, rfl, _, _, _, _, _, _, _, _, _, _, h⟩
  all_goals
    rw [h] at hx
    simp at hx
    omega

/-! ### The encoder writes no raw newline -/

theorem hexDigit_ne_newline (d : Nat) : hexDigit d ≠ 0x0A := by
  unfold hexDigit
  split <;> omega

theorem escapeByte_no_newline (b : Nat) : ∀ x ∈ escapeByte b, x ≠ 0x0A := by
  intro x hx
  have h1 := hexDigit_ne_newline (b / 16)
  have h2 := hexDigit_ne_newline (b % 16)
  unfold escapeByte at hx
  split_ifs at hx <;> simp at hx <;> omega

theorem appendStringBody_no_newline (fuel : Nat) :
    ∀ s : GoString, ∀ x ∈ appendStringBody fuel s, x ≠ 0x0A := by
  induction fuel with
  | zero => intro s x hx; simp [appendStringBody] at hx
  | succ n ih =>
    intro s x hx
    cases s with
    | nil => simp [appendStringBody] at hx
    | cons b rest =>
      simp only [appendStringBody] at hx
      by_cases hb : b < 0x80
      · simp only [hb, if_true, List.mem_append] at hx
        rcases hx with hx | hx
        · by_cases hs : htmlSafeSet b = true
          · simp only [hs, if_true, List.mem_singleton] at hx
            simp only [htmlSafeSet, Bool.and_eq_true, decide_eq_true_eq] at hs
            omega
          · simp only [hs] at hx
            exact escapeByte_no_newline b x hx
        · exact ih rest x hx
      · simp only [hb, if_false] at hx
        split_ifs at hx with h1 h2
        · simp only [List.mem_append] at hx
          rcases hx with hx | hx
          · simp at hx; omega
          · exact ih rest x hx
        · simp only [List.mem_append] at hx
          rcases hx with hx | hx
          · have := hexDigit_ne_newline ((decodeRune (b :: rest)).1 % 16)
            simp at hx; omega
          · exact ih _ x hx
        · simp only [List.mem_append] at hx
          rcases hx with hx | hx
          · have := decodeRune_take_ge b rest hb x hx
            omega
          · exact ih _ x hx

/-- A JSON string literal written by `appendString` holds no newline byte. -/
theorem appendString_count_newline (s : GoString) : (appendString s).count 0x0A = 0 := by
  rw [List.count_eq_zero]
  intro hx
  simp only [appendString, List.mem_cons, List.mem_append, List.mem_singleton] at hx
  rcases hx with hx | hx | hx
  · exact absurd hx (by decide)
  · exact appendStringBody_no_newline _ s _ hx rfl
  · exact absurd hx (by decide)

/-- The encoding of a `Person` holds no newline byte. -/
theorem marshalPerson_count_newline (p : Person) : (marshalPerson p).count 0x0A = 0 := by
  have h1 : lit "\x7b\"id\":" = [0x7B, 0x22, 0x69, 0x64, 0x22, 0x3A] := by decide
  have h2 : lit ",\"name\":" = [0x2C, 0x22, 0x6E, 0x61, 0x6D, 0x65, 0x22, 0x3A] := by decide
  have h3 : lit "\x7d" = [0x7D] := by decide
  simp only [marshalPerson, List.count_append, appendString_count_newline, h1, h2, h3]
  decide

/-- The action line of the bulk body: the members of the inner map are written in
key order, `_id` before `_index`. -/
theorem bulk_action_line (indexName id : GoString) :
    marshalSingleton (lit "index") (marshalStringMap [(lit "_index", indexName), (lit "_id", id)])
      = lit "\x7b\"index\":\x7b\"_id\":" ++ appendString id ++ lit ",\"_index\":"
          ++ appendString indexName ++ lit "\x7d\x7d" := by
  have h1 : strLe (lit "_index") (lit "_id") = false := by decide
  have h2 : appendString (lit "index") = lit "\"index\"" := by decide
  have h3 : appendString (lit "_id") = lit "\"_id\"" := by decide
  have h4 : appendString (lit "_index") = lit "\"_index\"" := by decide
  have h5 : lit "\x7b\"index\":\x7b\"_id\":" = 0x7B :: (lit "\"index\"" ++ 0x3A :: 0x7B :: (lit "\"_id\"" ++ [0x3A])) := by
    decide
  have h6 : lit ",\"_index\":" = 0x2C :: (lit "\"_index\"" ++ [0x3A]) := by decide
  have h7 : lit "\x7d\x7d" = [0x7D, 0x7D] := by decide
  simp only [marshalSingleton, marshalStringMap, List.foldr, insertEntry, h1, joinMembers,
    List.map, h2, h3, h4, h5, h6, h7]
  simp

theorem bulk_action_count_newline (indexName id : GoString) :
    (marshalSingleton (lit "index")
      (marshalStringMap [(lit "_index", indexName), (lit "_id", id)])).count 0x0A = 0 := by
  have h1 : lit "\x7b\"index\":\x7b\"_id\":" = [123, 34, 105, 110, 100, 101, 120, 34, 58, 123, 34, 95, 105, 100, 34, 58] := by
    decide
  have h2 : lit ",\"_index\":" = [44, 34, 95, 105, 110, 100, 101, 120, 34, 58] := by decide
  have h3 : lit "\x7d\x7d" = [0x7D, 0x7D] := by decide
  rw [bulk_action_line]
  simp only [List.count_append, appendString_count_newline, h1, h2, h3]
  decide

/-- The loop of `insertBatch` appends one pair of lines per person, in order. -/
theorem foldl_bulkStep (indexName : GoString) (persons : List Person) :
    ∀ acc : GoString, persons.foldl (bulkStep indexName) acc
      = acc ++ persons.flatMap (bulkPair indexName) := by
  have hnl : lit "\n" = [0x0A] := by decide
  induction persons with
  | nil => intro acc; simp
  | cons p ps ih =>
    intro acc
    simp only [List.foldl_cons, List.flatMap_cons, ih, bulkStep, bulk_action_line, hnl, bulkPair]
    simp [List.append_assoc]

theorem bulkPair_count_newline (indexName : GoString) (p : Person) :
    (bulkPair indexName p).count 0x0A = 2 := by
  have h := bulk_action_count_newline indexName p.ID
  rw [bulk_action_line] at h
  simp only [bulkPair, List.count_append, h, marshalPerson_count_newline]
  decide

/-- C10. The body of the bulk request of `insertBatch` is the concatenation, in
input order, of one pair of lines per person (the action line with `_id` and
`_index`, a newline, the encoding of the person, a newline); it holds exactly `2 * n`
newline bytes for `n` persons, whatever bytes the ids, names and index name hold, and
it is empty for no persons. -/
theorem insertBatch_bulk_body {σ : Type} (es : Client σ) (indexName : GoString)
    (persons : List Person) (w : World σ) :
    (insertBatch es indexName persons w).2.sent
        = w.sent ++ [Request.Bulk (persons.flatMap (bulkPair indexName)) (lit "true")]
    ∧ (persons.flatMap (bulkPair indexName)).count 0x0A = 2 * persons.length
    ∧ (persons = [] → persons.flatMap (bulkPair indexName) = []) := by
  refine ⟨?_, ?_, ?_⟩
  · simp only [insertBatch, write_world, foldl_bulkStep, List.nil_append]
  · induction persons with
    | nil => simp
    | cons p ps ih =>
      simp only [List.flatMap_cons, List.count_append, ih, bulkPair_count_newline,
        List.length_cons]
      omega
  · intro h
    simp [h]

/-- C4, as amended. `insertBatch` reports one outcome for the whole batch: it issues
one bulk request and returns a nil error exactly when the transport call succeeds
with a status of at most 299; the per-item statuses in the response body play no
part. -/
theorem insertBatch_single_outcome {σ : Type} (es : Client σ) (indexName : GoString)
    (persons : List Person) (w : World σ) :
    (insertBatch es indexName persons w).2.sent
        = w.sent ++ [Request.Bulk (persons.foldl (bulkStep indexName) []) (lit "true")]
    ∧ ((insertBatch es indexName persons w).1 = none
        ↔ ∃ res b, es.perform
              (Request.Bulk (persons.foldl (bulkStep indexName) []) (lit "true")) w.backend
            = (.ok res, b) ∧ res.StatusCode ≤ 299) := by
  refine ⟨?_, ?_⟩
  · simp only [insertBatch, write_world]
  · simp only [insertBatch, write_nil_iff]

/-- Counterexample to C4: for a batch of a valid record and one with an empty id,
answered by status 200 with a failed second item, `insertBatch` returns a nil error:
no failure is reported for the second record. -/
theorem insertBatch_partial_failure_unreported :
    (insertBatch (constBackend partialFailure) (lit "person")
      [⟨lit "p1002", lit "李四"⟩, ⟨[], lit "王五"⟩] emptyWorld).1 = none := rfl

theorem foldl_hits (hits : List Hit) :
    ∀ acc : List Person, hits.foldl (fun persons hit => persons ++ [hit.Source]) acc
      = acc ++ hits.map Hit.Source := by
  induction hits with
  | nil => intro acc; simp
  | cons h hs ih => intro acc; simp [ih]

/-- C8. For a search response with a status of at most 299 whose body decodes to a
list of hits, `queryByName` returns the `_source` of every hit, in the order of the
response, with a nil error: as many persons as hits, the i-th from the i-th hit, and
none for no hits. -/
theorem queryByName_hits {σ : Type} (es : Client σ) (decode : GoString → Option SearchResult)
    (indexName name : GoString) (w : World σ) (res : Response) (b : σ)
    (result : SearchResult)
    (hdo : es.perform (Request.Search [indexName] (matchQuery name)) w.backend = (.ok res, b))
    (hstatus : res.StatusCode ≤ 299) (hdecode : decode res.Body = some result) :
    (queryByName es decode indexName name w).1 = (result.Hits.Hits.map Hit.Source, none)
    ∧ (queryByName es decode indexName name w).1.1.length = result.Hits.Hits.length
    ∧ (∀ i : Nat, ∀ h : Hit, result.Hits.Hits[i]? = some h →
        (queryByName es decode indexName name w).1.1[i]? = some h.Source)
    ∧ (result.Hits.Hits = [] → (queryByName es decode indexName name w).1 = ([], none)) := by
  have herr : res.IsError = false := by
    simp [Response.IsError, hstatus]
  have hq : (queryByName es decode indexName name w).1
      = (result.Hits.Hits.map Hit.Source, none) := by
    simp [queryByName, do_eq _ _ _ _ _ hdo, herr, hdecode, foldl_hits]
  refine ⟨hq, ?_, ?_, ?_⟩
  · simp [hq]
  · intro i h hi
    simp [hq, hi]
  · intro h
    simp [hq, h]

/-- Witness of C8: a response with two hits. -/
theorem queryByName_hits_witness :
    (queryByName (constBackend ⟨200, []⟩)
        (fun _ => some ⟨⟨[⟨⟨lit "p1001", lit "张三"⟩⟩, ⟨⟨lit "p1005", lit "张飞"⟩⟩]⟩⟩)
        (lit "person") (lit "张") emptyWorld).1
      = ([⟨lit "p1001", lit "张三"⟩, ⟨lit "p1005", lit "张飞"⟩], none) :=
  (queryByName_hits (constBackend ⟨200, []⟩)
    (fun _ => some ⟨⟨[⟨⟨lit "p1001", lit "张三"⟩⟩, ⟨⟨lit "p1005", lit "张飞"⟩⟩]⟩⟩)
    (lit "person") (lit "张") emptyWorld ⟨200, []⟩ () _ rfl (by decide) rfl).1

/-- C5, the failing input. A 200 response whose body is the empty JSON object: the
body decodes, `result["_source"]` is nil and the type assertion panics; `queryByID`
returns neither a `Person` nor an error. -/
theorem queryByID_missing_source_panics :
    queryByID (constBackend ⟨200, lit "\x7b\x7d"⟩) (lit "person") (lit "p1001") emptyWorld
      = (.panic, ⟨(), [Request.Get (lit "person") (lit "p1001")]⟩) := by
  rfl

/-- C6. Creation is guarded by the existence check. When the check is answered 200,
`main` stops with the already-exists message and issues no create request; when it
is answered 404, `main` issues exactly one create request, for index `person` with
the fixed mapping; for any other status `main` stops without a create request.
Hence, against a backend that acknowledges the creation and then answers the check
with 200, a first run succeeds and a second run, in the world the first left, stops
with the already-exists message after the check alone. -/
theorem createMain_guarded {σ : Type} (es : Client σ) (w : World σ) (res : Response) (b : σ)
    (hprobe : es.perform (Request.IndicesExists [lit "person"]) w.backend = (.ok res, b)) :
    (res.StatusCode = 200 →
      createMain es w
        = (.fatal ⟨"索引 \x27%s\x27 已存在,无需重复创建", [.str (lit "person")]⟩,
            ⟨b, w.sent ++ [Request.IndicesExists [lit "person"]]⟩))
    ∧ (res.StatusCode = 404 →
      (createMain es w).2.sent
        = w.sent ++ [Request.IndicesExists [lit "person"],
            Request.IndicesCreate (lit "person") (lit indexMapping)])
    ∧ (res.StatusCode ≠ 200 → res.StatusCode ≠ 404 →
      createMain es w
        = (.fatal ⟨"检查索引状态异常: %s", [.status res.StatusCode]⟩,
            ⟨b, w.sent ++ [Request.IndicesExists [lit "person"]]⟩))
    ∧ (∀ (created : Response) (b1 : σ) (result : GoMap) (res2 : Response) (b2 : σ),
        res.StatusCode = 404 →
        es.perform (Request.IndicesCreate (lit "person") (lit indexMapping)) b
          = (.ok created, b1) →
        created.StatusCode ≤ 299 → decodeMap created.Body = some result →
        es.perform (Request.IndicesExists [lit "person"]) b1 = (.ok res2, b2) →
        res2.StatusCode = 200 →
        createMain es w
          = (.done result, ⟨b1, w.sent ++ [Request.IndicesExists [lit "person"],
              Request.IndicesCreate (lit "person") (lit indexMapping)]⟩)
        ∧ createMain es (createMain es w).2
          = (.fatal ⟨"索引 \x27%s\x27 已存在,无需重复创建", [.str (lit "person")]⟩,
              ⟨b2, w.sent ++ [Request.IndicesExists [lit "person"],
                Request.IndicesCreate (lit "person") (lit indexMapping),
                Request.IndicesExists [lit "person"]]⟩)) := by
  refine ⟨?_, ?_, ?_, ?_⟩
  · intro h200
    simp [createMain, do_eq _ _ _ _ _ hprobe, h200]
  · intro h404
    simp only [createMain, do_eq _ _ _ _ _ hprobe, h404]
    simp only [show ¬ ((404 : Int) = 200) by decide, if_false, ne_eq, not_true_eq_false]
    rcases hc : es.perform (Request.IndicesCreate (lit "person") (lit indexMapping)) b
      with ⟨r, b1⟩
    cases r with
    | error e => simp [Request.Do, hc]
    | ok created =>
      simp only [Request.Do, hc]
      cases decodeMap created.Body with
      | none => simp
      | some result =>
        simp only []
        by_cases herr : created.IsError = true
        · simp only [herr, if_true]
          cases (result.index (lit "error")).assertMap <;> simp
        · simp [herr]
  · intro h200 h404
    simp [createMain, do_eq _ _ _ _ _ hprobe, h200, h404]
  · intro created b1 result res2 b2 h404 hc hok hdec hprobe2 h200
    have herr : created.IsError = false := by
      simp [Response.IsError, hok]
    have hfirst : createMain es w
        = (.done result, ⟨b1, w.sent ++ [Request.IndicesExists [lit "person"],
            Request.IndicesCreate (lit "person") (lit indexMapping)]⟩) := by
      simp only [createMain, do_eq _ _ _ _ _ hprobe, h404]
      simp [Request.Do, hc, hdec, herr]
    refine ⟨hfirst, ?_⟩
    rw [hfirst]
    have hprobe2w : es.perform (Request.IndicesExists [lit "person"])
        (⟨b1, w.sent ++ [Request.IndicesExists [lit "person"],
            Request.IndicesCreate (lit "person") (lit indexMapping)]⟩ : World σ).backend
          = (.ok res2, b2) := hprobe2
    simp [createMain, do_eq _ _ _ _ _ hprobe2w, h200]

/-- Witness of C6: two runs against the recording backend, starting with no index. -/
theorem createMain_guarded_witness :
    createMain recordingBackend ⟨[], []⟩
        = (.done [(lit "acknowledged", .bool true)],
            ⟨[lit "person"], [Request.IndicesExists [lit "person"],
              Request.IndicesCreate (lit "person") (lit indexMapping)]⟩)
    ∧ createMain recordingBackend (createMain recordingBackend ⟨[], []⟩).2
        = (.fatal ⟨"索引 \x27%s\x27 已存在,无需重复创建", [.str (lit "person")]⟩,
            ⟨[lit "person"], [Request.IndicesExists [lit "person"],
              Request.IndicesCreate (lit "person") (lit indexMapping),
              Request.IndicesExists [lit "person"]]⟩) :=
  (createMain_guarded recordingBackend ⟨[], []⟩ ⟨404, []⟩ [] rfl).2.2.2
    ⟨200, lit "\x7b\"acknowledged\":true\x7d"⟩ [lit "person"]
    [(lit "acknowledged", .bool true)] ⟨200, []⟩ [lit "person"]
    rfl rfl (by decide) rfl rfl rfl

/-! ### Decoding what the encoder wrote -/

theorem unhex_hexDigit (d : Nat) (h : d < 16) : unhex (hexDigit d) = some d := by
  interval_cases d <;> rfl

theorem decodeRune_two (b b1 : Nat) (t : GoString) (h1 : 0xC2 ≤ b) (h2 : b < 0xE0)
    (h3 : 0x80 ≤ b1) (h4 : b1 ≤ 0xBF) :
    decodeRune (b :: b1 :: t) = ((b - 0xC0) * 64 + (b1 - 0x80), 2) := by
  have e1 : ¬ b < 0x80 := by omega
  have e2 : ¬ b < 0xC2 := by omega
  simp [decodeRune, isCont, e1, e2, h2, h3, h4]

theorem decodeRune_three (b b1 b2 : Nat) (t : GoString) (h1 : 0xE0 ≤ b) (h2 : b < 0xF0)
    (hlo : b = 0xE0 → 0xA0 ≤ b1) (hhi : b = 0xED → b1 ≤ 0x9F)
    (h3 : 0x80 ≤ b1) (h4 : b1 ≤ 0xBF) (h5 : 0x80 ≤ b2) (h6 : b2 ≤ 0xBF) :
    decodeRune (b :: b1 :: b2 :: t)
      = ((b - 0xE0) * 4096 + (b1 - 0x80) * 64 + (b2 - 0x80), 3) := by
  have e1 : ¬ b < 0x80 := by omega
  have e2 : ¬ b < 0xC2 := by omega
  have e3 : ¬ b < 0xE0 := by omega
  have c1 : (if b = 0xE0 then 0xA0 else 0x80) ≤ b1 := by
    split
    · exact hlo (by assumption)
    · exact h3
  have c2 : b1 ≤ (if b = 0xED then 0x9F else 0xBF) := by
    split
    · exact hhi (by assumption)
    · exact h4
  simp only [decodeRune, isCont, e1, e2, e3, h2, if_false, if_true]
  simp [c1, c2, h5, h6]

theorem decodeRune_four (b b1 b2 b3 : Nat) (t : GoString) (h1 : 0xF0 ≤ b) (h2 : b < 0xF5)
    (hlo : b = 0xF0 → 0x90 ≤ b1) (hhi : b = 0xF4 → b1 ≤ 0x8F)
    (h3 : 0x80 ≤ b1) (h4 : b1 ≤ 0xBF) (h5 : 0x80 ≤ b2) (h6 : b2 ≤ 0xBF)
    (h7 : 0x80 ≤ b3) (h8 : b3 ≤ 0xBF) :
    decodeRune (b :: b1 :: b2 :: b3 :: t)
      = ((b - 0xF0) * 262144 + (b1 - 0x80) * 4096 + (b2 - 0x80) * 64 + (b3 - 0x80), 4) := by
  have e1 : ¬ b < 0x80 := by omega
  have e2 : ¬ b < 0xC2 := by omega
  have e3 : ¬ b < 0xE0 := by omega
  have e4 : ¬ b < 0xF0 := by omega
  have c1 : (if b = 0xF0 then 0x90 else 0x80) ≤ b1 := by
    split
    · exact hlo (by assumption)
    · exact h3
  have c2 : b1 ≤ (if b = 0xF4 then 0x8F else 0xBF) := by
    split
    · exact hhi (by assumption)
    · exact h4
  simp only [decodeRune, isCont, e1, e2, e3, e4, h2, if_false, if_true]
  simp [c1, c2, h5, h6, h7, h8]

theorem encodeRune_two (b b1 : Nat) (h1 : 0xC2 ≤ b) (h2 : b < 0xE0)
    (h3 : 0x80 ≤ b1) (h4 : b1 ≤ 0xBF) :
    encodeRune ((b - 0xC0) * 64 + (b1 - 0x80)) = [b, b1] := by
  have e1 : ¬ (b - 0xC0) * 64 + (b1 - 0x80) < 0x80 := by omega
  have e2 : (b - 0xC0) * 64 + (b1 - 0x80) < 0x800 := by omega
  simp only [encodeRune, e1, e2, if_false, if_true]
  have a1 : 0xC0 + ((b - 0xC0) * 64 + (b1 - 0x80)) / 64 = b := by omega
  have a2 : 0x80 + ((b - 0xC0) * 64 + (b1 - 0x80)) % 64 = b1 := by omega
  rw [a1, a2]

theorem encodeRune_three (b b1 b2 : Nat) (h1 : 0xE0 ≤ b) (h2 : b < 0xF0)
    (hlo : b = 0xE0 → 0xA0 ≤ b1) (hhi : b = 0xED → b1 ≤ 0x9F)
    (h3 : 0x80 ≤ b1) (h4 : b1 ≤ 0xBF) (h5 : 0x80 ≤ b2) (h6 : b2 ≤ 0xBF) :
    encodeRune ((b - 0xE0) * 4096 + (b1 - 0x80) * 64 + (b2 - 0x80)) = [b, b1, b2] := by
  have e1 : ¬ (b - 0xE0) * 4096 + (b1 - 0x80) * 64 + (b2 - 0x80) < 0x80 := by
    by_cases h : b = 0xE0
    · have := hlo h; omega
    · omega
  have e2 : ¬ (b - 0xE0) * 4096 + (b1 - 0x80) * 64 + (b2 - 0x80) < 0x800 := by
    by_cases h : b = 0xE0
    · have := hlo h; omega
    · omega
  have e3 : ¬ ((0xD800 ≤ (b - 0xE0) * 4096 + (b1 - 0x80) * 64 + (b2 - 0x80)
      ∧ (b - 0xE0) * 4096 + (b1 - 0x80) * 64 + (b2 - 0x80) ≤ 0xDFFF)
      ∨ 0x10FFFF < (b - 0xE0) * 4096 + (b1 - 0x80) * 64 + (b2 - 0x80)) := by
    by_cases h : b = 0xED
    · have := hhi h; omega
    · omega
  have e4 : (b - 0xE0) * 4096 + (b1 - 0x80) * 64 + (b2 - 0x80) < 0x10000 := by omega
  simp only [encodeRune, e1, e2, e3, e4, if_false, if_true]
  have a1 : 0xE0 + ((b - 0xE0) * 4096 + (b1 - 0x80) * 64 + (b2 - 0x80)) / 4096 = b := by omega
  have a2 : 0x80 + ((b - 0xE0) * 4096 + (b1 - 0x80) * 64 + (b2 - 0x80)) / 64 % 64 = b1 := by
    omega
  have a3 : 0x80 + ((b - 0xE0) * 4096 + (b1 - 0x80) * 64 + (b2 - 0x80)) % 64 = b2 := by omega
  rw [a1, a2, a3]

theorem encodeRune_four (b b1 b2 b3 : Nat) (h1 : 0xF0 ≤ b) (h2 : b < 0xF5)
    (hlo : b = 0xF0 → 0x90 ≤ b1) (hhi : b = 0xF4 → b1 ≤ 0x8F)
    (h3 : 0x80 ≤ b1) (h4 : b1 ≤ 0xBF) (h5 : 0x80 ≤ b2) (h6 : b2 ≤ 0xBF)
    (h7 : 0x80 ≤ b3) (h8 : b3 ≤ 0xBF) :
    encodeRune ((b - 0xF0) * 262144 + (b1 - 0x80) * 4096 + (b2 - 0x80) * 64 + (b3 - 0x80))
      = [b, b1, b2, b3] := by
  have lo : 0x10000 ≤ (b - 0xF0) * 262144 + (b1 - 0x80) * 4096 + (b2 - 0x80) * 64 + (b3 - 0x80) := by
    by_cases h : b = 0xF0
    · have := hlo h; omega
    · omega
  have hi : (b - 0xF0) * 262144 + (b1 - 0x80) * 4096 + (b2 - 0x80) * 64 + (b3 - 0x80) ≤ 0x10FFFF := by
    by_cases h : b = 0xF4
    · have := hhi h; omega
    · omega
  have e1 : ¬ (b - 0xF0) * 262144 + (b1 - 0x80) * 4096 + (b2 - 0x80) * 64 + (b3 - 0x80) < 0x80 := by
    omega
  have e2 : ¬ (b - 0xF0) * 262144 + (b1 - 0x80) * 4096 + (b2 - 0x80) * 64 + (b3 - 0x80) < 0x800 := by
    omega
  have e3 : ¬ ((0xD800 ≤ (b - 0xF0) * 262144 + (b1 - 0x80) * 4096 + (b2 - 0x80) * 64 + (b3 - 0x80)
      ∧ (b - 0xF0) * 262144 + (b1 - 0x80) * 4096 + (b2 - 0x80) * 64 + (b3 - 0x80) ≤ 0xDFFF)
      ∨ 0x10FFFF < (b - 0xF0) * 262144 + (b1 - 0x80) * 4096 + (b2 - 0x80) * 64 + (b3 - 0x80)) := by
    omega
  have e4 : ¬ (b - 0xF0) * 262144 + (b1 - 0x80) * 4096 + (b2 - 0x80) * 64 + (b3 - 0x80) < 0x10000 := by
    omega
  simp only [encodeRune, e1, e2, e3, e4, if_false]
  have a1 : 0xF0 + ((b - 0xF0) * 262144 + (b1 - 0x80) * 4096 + (b2 - 0x80) * 64 + (b3 - 0x80))
      / 262144 = b := by omega
  have a2 : 0x80 + ((b - 0xF0) * 262144 + (b1 - 0x80) * 4096 + (b2 - 0x80) * 64 + (b3 - 0x80))
      / 4096 % 64 = b1 := by omega
  have a3 : 0x80 + ((b - 0xF0) * 262144 + (b1 - 0x80) * 4096 + (b2 - 0x80) * 64 + (b3 - 0x80))
      / 64 % 64 = b2 := by omega
  have a4 : 0x80 + ((b - 0xF0) * 262144 + (b1 - 0x80) * 4096 + (b2 - 0x80) * 64 + (b3 - 0x80))
      % 64 = b3 := by omega
  rw [a1, a2, a3, a4]

/-- Encoding the rune that `decodeRune` read gives back the bytes read, when they
are a well-formed multi-byte encoding. -/
theorem encodeRune_decodeRune (b : Nat) (t : GoString) (hb : ¬ b < 0x80)
    (hv : ¬ ((decodeRune (b :: t)).1 = RuneError ∧ (decodeRune (b :: t)).2 = 1)) :
    encodeRune (decodeRune (b :: t)).1 = (b :: t).take (decodeRune (b :: t)).2
    ∧ ∀ tail : GoString,
        decodeRune ((b :: t).take (decodeRune (b :: t)).2 ++ tail) = decodeRune (b :: t) := by
  rcases decodeRune_inv b t hb with h | ⟨b1, t1, rfl, h1, h2, h3, h4, h⟩
      | ⟨b1, b2, t1, rfl, h1, h2, hlo, hhi, h3, h4, h5, h6, h⟩
      | ⟨b1, b2, b3, t1, rfl, h1, h2, hlo, hhi, h3, h4, h5, h6, h7, h8, h⟩
  · exact absurd (by simp [h]) hv
  · rw [h]
    refine ⟨by simpa using encodeRune_two b b1 h1 h2 h3 h4, fun tail => ?_⟩
    simpa using decodeRune_two b b1 tail h1 h2 h3 h4
  · rw [h]
    refine ⟨by simpa using encodeRune_three b b1 b2 h1 h2 hlo hhi h3 h4 h5 h6, fun tail => ?_⟩
    simpa using decodeRune_three b b1 b2 tail h1 h2 hlo hhi h3 h4 h5 h6
  · rw [h]
    refine ⟨by simpa using encodeRune_four b b1 b2 b3 h1 h2 hlo hhi h3 h4 h5 h6 h7 h8,
      fun tail => ?_⟩
    simpa using decodeRune_four b b1 b2 b3 tail h1 h2 hlo hhi h3 h4 h5 h6 h7 h8

/-- The width `decodeRune` reports for a non-empty string is between 1 and its length. -/
theorem decodeRune_size (b : Nat) (t : GoString) :
    1 ≤ (decodeRune (b :: t)).2 ∧ (decodeRune (b :: t)).2 ≤ (b :: t).length := by
  by_cases hb : b < 0x80
  · simp [decodeRune, hb]
  · rcases decodeRune_inv b t hb with h | ⟨b1, t1, rfl, _, _, _, _, h⟩
        | ⟨b1, b2, t1, rfl, _, _, _, _, _, _, _, _, h⟩
        | ⟨b1, b2, b3, t1, rfl, _, _, _, _, _, _, _, _, _, _, h⟩
    all_goals
      rw [h]
      simp

theorem getu4_control (b : Nat) (hb : b < 0x100) (rest : GoString) :
    getu4 (0x5C :: 0x75 :: 0x30 :: 0x30 :: hexDigit (b / 16) :: hexDigit (b % 16) :: rest)
      = some (b, rest) := by
  have h1 := unhex_hexDigit (b / 16) (by omega)
  have h2 := unhex_hexDigit (b % 16) (by omega)
  have h0 : unhex 0x30 = some 0 := rfl
  have hb' : 0 * 4096 + 0 * 256 + b / 16 * 16 + b % 16 = b := by omega
  simp only [getu4, h0, h1, h2, and_self, if_true, hb']

theorem getu4_lineSep (c : Nat) (rest : GoString) :
    getu4 (0x5C :: 0x75 :: 0x32 :: 0x30 :: 0x32 :: hexDigit (c % 16) :: rest)
      = some (0x2020 + c % 16, rest) := by
  have h1 := unhex_hexDigit (c % 16) (by omega)
  have h0 : unhex 0x30 = some 0 := rfl
  have h2 : unhex 0x32 = some 2 := rfl
  simp only [getu4, h0, h1, h2, and_self, if_true]

/-- One step of the decoder over the escape of an ASCII byte. -/
theorem unquoteBody_escapeByte (b : Nat) (hb : b < 0x80) (hs : htmlSafeSet b = false)
    (f : Nat) (tail : GoString) :
    unquoteBody (f + 1) (escapeByte b ++ tail) = prepend [b] (unquoteBody f tail) := by
  unfold escapeByte
  split_ifs with h1 h2 h3 h4 h5 h6
  · rcases h1 with h1 | h1 <;> subst h1 <;> simp [unquoteBody, unescape]
  · subst h2; simp [unquoteBody, unescape]
  · subst h3; simp [unquoteBody, unescape]
  · subst h4; simp [unquoteBody, unescape]
  · subst h5; simp [unquoteBody, unescape]
  · subst h6; simp [unquoteBody, unescape]
  · have hg := getu4_control b (by omega) tail
    have e1 : ¬ (0xD800 ≤ b ∧ b ≤ 0xDFFF) := by omega
    have e2 : encodeRune b = [b] := by simp [encodeRune, hb]
    show unquoteBody (f + 1)
      (0x5C :: 0x75 :: 0x30 :: 0x30 :: hexDigit (b / 16) :: hexDigit (b % 16) :: tail) = _
    simp only [unquoteBody, show ¬ ((0x5C : Nat) = 0x22) by decide, if_false, if_true, hg, e1,
      e2]

/-- One step of the decoder over an ASCII byte copied as it is. -/
theorem unquoteBody_safe (b : Nat) (hs : htmlSafeSet b = true) (f : Nat) (tail : GoString) :
    unquoteBody (f + 1) (b :: tail) = prepend [b] (unquoteBody f tail) := by
  simp only [htmlSafeSet, Bool.and_eq_true, decide_eq_true_eq, bne_iff_ne, ne_eq] at hs
  obtain ⟨⟨⟨⟨⟨⟨h1, h2⟩, h3⟩, _⟩, _⟩, _⟩, h4⟩ := hs
  have e1 : ¬ b < 0x20 := by omega
  simp only [unquoteBody, h3, h4, e1, h2, if_false, if_true]

/-- One step of the decoder over a well-formed multi-byte encoding copied as it is. -/
theorem unquoteBody_copy (b : Nat) (t : GoString) (hb : ¬ b < 0x80)
    (hv : ¬ ((decodeRune (b :: t)).1 = RuneError ∧ (decodeRune (b :: t)).2 = 1))
    (f : Nat) (tail : GoString) :
    unquoteBody (f + 1) ((b :: t).take (decodeRune (b :: t)).2 ++ tail)
      = prepend ((b :: t).take (decodeRune (b :: t)).2) (unquoteBody f tail) := by
  obtain ⟨henc, hdec⟩ := encodeRune_decodeRune b t hb hv
  obtain ⟨hsz, _⟩ := decodeRune_size b t
  obtain ⟨k, hk⟩ : ∃ k, (decodeRune (b :: t)).2 = k + 1 := ⟨(decodeRune (b :: t)).2 - 1, by omega⟩
  have hd := hdec tail
  have hlen : ((b :: t).take (decodeRune (b :: t)).2).length = (decodeRune (b :: t)).2 := by
    have := (decodeRune_size b t).2
    simp only [List.length_take]
    omega
  have hdrop : ((b :: t).take (decodeRune (b :: t)).2 ++ tail).drop (decodeRune (b :: t)).2
      = tail := by
    rw [List.drop_append_of_le_length (by omega), List.drop_eq_nil_of_le (by omega)]
    rfl
  have htake : (b :: t).take (decodeRune (b :: t)).2 = b :: t.take k := by
    rw [hk, List.take_succ_cons]
  rw [htake] at henc hd hdrop ⊢
  have hd' : decodeRune (b :: (t.take k ++ tail)) = decodeRune (b :: t) := hd
  have hdrop' : (b :: (t.take k ++ tail)).drop (decodeRune (b :: t)).2 = tail := hdrop
  have e1 : ¬ b = 0x22 := by omega
  have e2 : ¬ b = 0x5C := by omega
  have e3 : ¬ b < 0x20 := by omega
  show unquoteBody (f + 1) (b :: (t.take k ++ tail)) = _
  simp only [unquoteBody, e1, e2, e3, hb, if_false]
  rw [hd', henc, hdrop']

/-- One step of the decoder over the escape of U+2028 or U+2029. -/
theorem unquoteBody_lineSep (b : Nat) (t : GoString) (hb : ¬ b < 0x80)
    (hc : (decodeRune (b :: t)).1 = 0x2028 ∨ (decodeRune (b :: t)).1 = 0x2029)
    (f : Nat) (tail : GoString) :
    unquoteBody (f + 1)
        ([0x5C, 0x75, 0x32, 0x30, 0x32, hexDigit ((decodeRune (b :: t)).1 % 16)] ++ tail)
      = prepend ((b :: t).take (decodeRune (b :: t)).2) (unquoteBody f tail) := by
  have hv : ¬ ((decodeRune (b :: t)).1 = RuneError ∧ (decodeRune (b :: t)).2 = 1) := by
    intro h
    rw [h.1] at hc
    simp [RuneError] at hc
  obtain ⟨henc, _⟩ := encodeRune_decodeRune b t hb hv
  have hg := getu4_lineSep (decodeRune (b :: t)).1 tail
  have hval : 0x2020 + (decodeRune (b :: t)).1 % 16 = (decodeRune (b :: t)).1 := by
    rcases hc with h | h <;> rw [h]
  rw [hval] at hg
  have e1 : ¬ (0xD800 ≤ (decodeRune (b :: t)).1 ∧ (decodeRune (b :: t)).1 ≤ 0xDFFF) := by
    rcases hc with h | h <;> rw [h] <;> omega
  show unquoteBody (f + 1) (0x5C :: 0x75 :: 0x32 :: 0x30 :: 0x32
    :: hexDigit ((decodeRune (b :: t)).1 % 16) :: tail) = _
  simp only [unquoteBody, show ¬ ((0x5C : Nat) = 0x22) by decide, if_false, if_true, hg, e1,
    henc]

theorem escapeByte_length (b : Nat) : 1 ≤ (escapeByte b).length := by
  unfold escapeByte
  split_ifs <;> simp

/-- The decoder reads back what `appendString` wrote between the quotes, for a
string of well-formed UTF-8. -/
theorem unquoteBody_appendStringBody (n : Nat) :
    ∀ s : GoString, s.length ≤ n → validStringAux n s = true →
    ∀ (rest : GoString) (fuel : Nat), (appendStringBody n s).length < fuel →
      unquoteBody fuel (appendStringBody n s ++ 0x22 :: rest) = some (s, rest) := by
  induction n with
  | zero =>
    intro s hlen _ rest fuel hf
    have hs : s = [] := List.eq_nil_of_length_eq_zero (by omega)
    subst hs
    obtain ⟨f, rfl⟩ : ∃ f, fuel = f + 1 := ⟨fuel - 1, by omega⟩
    simp [appendStringBody, unquoteBody]
  | succ n ih =>
    intro s hlen hv rest fuel hf
    obtain ⟨f, rfl⟩ : ∃ f, fuel = f + 1 := ⟨fuel - 1, by omega⟩
    cases s with
    | nil => simp [appendStringBody, unquoteBody]
    | cons b t =>
      have hsz := decodeRune_size b t
      have hvalid : ¬ ((decodeRune (b :: t)).1 = RuneError ∧ (decodeRune (b :: t)).2 = 1) := by
        intro h
        simp [validStringAux, h] at hv
      have hvt : validStringAux n ((b :: t).drop (decodeRune (b :: t)).2) = true := by
        simp only [validStringAux, hvalid, if_false] at hv
        exact hv
      have hlt : ((b :: t).drop (decodeRune (b :: t)).2).length ≤ n := by
        simp only [List.length_drop, List.length_cons] at hlen ⊢
        omega
      have key : ∃ chunk : GoString, 1 ≤ chunk.length
          ∧ appendStringBody (n + 1) (b :: t)
            = chunk ++ appendStringBody n ((b :: t).drop (decodeRune (b :: t)).2)
          ∧ ∀ tail, unquoteBody (f + 1) (chunk ++ tail)
            = prepend ((b :: t).take (decodeRune (b :: t)).2) (unquoteBody f tail) := by
        by_cases hb : b < 0x80
        · have hd : decodeRune (b :: t) = (b, 1) := by simp [decodeRune, hb]
          refine ⟨if htmlSafeSet b then [b] else escapeByte b, ?_, ?_, ?_⟩
          · split
            · simp
            · exact escapeByte_length b
          · simp [appendStringBody, hb, hd]
          · intro tail
            rw [hd]
            by_cases hs : htmlSafeSet b = true
            · simpa [hs] using unquoteBody_safe b hs f tail
            · have hs' : htmlSafeSet b = false := by simpa using hs
              simpa [hs'] using unquoteBody_escapeByte b hb hs' f tail
        · by_cases hc : (decodeRune (b :: t)).1 = 0x2028 ∨ (decodeRune (b :: t)).1 = 0x2029
          · refine ⟨[0x5C, 0x75, 0x32, 0x30, 0x32, hexDigit ((decodeRune (b :: t)).1 % 16)],
              by simp, ?_, fun tail => unquoteBody_lineSep b t hb hc f tail⟩
            simp only [appendStringBody, hb, hvalid, hc, if_false, if_true]
          · refine ⟨(b :: t).take (decodeRune (b :: t)).2, ?_, ?_,
              fun tail => unquoteBody_copy b t hb hvalid f tail⟩
            · simp only [List.length_take, List.length_cons]
              omega
            · simp only [appendStringBody, hb, hvalid, hc, if_false]
      obtain ⟨chunk, hpos, henc, hstep⟩ := key
      have hlen2 : (appendStringBody n ((b :: t).drop (decodeRune (b :: t)).2)).length < f := by
        rw [henc, List.length_append] at hf
        omega
      rw [henc, List.append_assoc, hstep, ih _ hlt hvt rest f hlen2]
      simp only [prepend, List.take_append_drop]

/-- Reading a string literal written by `appendString`: `scanString` is applied to
what follows the opening quote. -/
theorem scanString_appendString (s rest : GoString) (hv : validString s = true) :
    scanString (appendStringBody s.length s ++ 0x22 :: rest) = some (s, rest) := by
  unfold scanString
  apply unquoteBody_appendStringBody s.length s (Nat.le_refl _) hv
  simp only [List.length_append, List.length_cons]
  omega

theorem skipSpace_cons (c : Nat) (s : GoString) (h : isSpace c = false) :
    skipSpace (c :: s) = c :: s := by
  simp [skipSpace, h]

/-- The parser reads a string literal written by `appendString` as that string. -/
theorem parseValue_appendString (s rest : GoString) (hv : validString s = true)
    (f depth : Nat) :
    parseValue (f + 1) depth (appendString s ++ rest) = some (.str s, rest) := by
  have h := scanString_appendString s rest hv
  show parseValue (f + 1) depth (0x22 :: (appendStringBody s.length s ++ [0x22] ++ rest)) = _
  rw [List.append_assoc]
  simp only [parseValue, List.singleton_append, h,
    show ¬ ((0x22 : Nat) = 0x7B) by decide, show ¬ ((0x22 : Nat) = 0x5B) by decide, if_false,
    if_true]

/-- The parser reads the last member of an object whose key and value are string
literals written by `appendString`. -/
theorem parseMembers_last (key value rest : GoString) (hk : validString key = true)
    (hv : validString value = true) (f depth : Nat) :
    parseMembers (f + 2) depth (appendString key ++ 0x3A :: (appendString value ++ 0x7D :: rest))
      = some ([(key, .str value)], rest) := by
  have h := scanString_appendString key (0x3A :: (appendString value ++ 0x7D :: rest)) hk
  have hval := parseValue_appendString value (0x7D :: rest) hv f depth
  have hsp : skipSpace (appendString value ++ 0x7D :: rest)
      = appendString value ++ 0x7D :: rest := skipSpace_cons _ _ (by decide)
  show parseMembers (f + 2) depth (0x22 :: (appendStringBody key.length key ++ [0x22]
    ++ 0x3A :: (appendString value ++ 0x7D :: rest))) = _
  rw [List.append_assoc]
  simp only [parseMembers, List.singleton_append, h, if_true,
    skipSpace_cons 0x3A _ (by decide), hsp, hval, skipSpace_cons 0x7D _ (by decide),
    show ¬ ((0x7D : Nat) = 0x2C) by decide, if_false]

/-- The parser reads a member followed by further members, when key and value are
string literals written by `appendString`. -/
theorem parseMembers_more (key value more rest : GoString) (ms : List (GoString × JVal))
    (hk : validString key = true) (hv : validString value = true) (f depth : Nat)
    (hmore : parseMembers (f + 1) depth (skipSpace more) = some (ms, rest)) :
    parseMembers (f + 2) depth (appendString key ++ 0x3A :: (appendString value ++ 0x2C :: more))
      = some ((key, .str value) :: ms, rest) := by
  have h := scanString_appendString key (0x3A :: (appendString value ++ 0x2C :: more)) hk
  have hval := parseValue_appendString value (0x2C :: more) hv f depth
  have hsp : skipSpace (appendString value ++ 0x2C :: more)
      = appendString value ++ 0x2C :: more := skipSpace_cons _ _ (by decide)
  show parseMembers (f + 2) depth (0x22 :: (appendStringBody key.length key ++ [0x22]
    ++ 0x3A :: (appendString value ++ 0x2C :: more))) = _
  rw [List.append_assoc]
  simp only [parseMembers, List.singleton_append, h, if_true,
    skipSpace_cons 0x3A _ (by decide), hsp, hval, skipSpace_cons 0x2C _ (by decide), hmore]

/-- The encoding of a `Person`, member by member. -/
theorem marshalPerson_members (p : Person) :
    marshalPerson p = 0x7B :: (appendString (lit "id") ++ 0x3A :: (appendString p.ID
      ++ 0x2C :: (appendString (lit "name") ++ 0x3A :: (appendString p.Name ++ [0x7D])))) := by
  have h1 : lit "\x7b\"id\":" = 0x7B :: (appendString (lit "id") ++ [0x3A]) := by decide
  have h2 : lit ",\"name\":" = 0x2C :: (appendString (lit "name") ++ [0x3A]) := by decide
  have h3 : lit "\x7d" = [0x7D] := by decide
  simp only [marshalPerson, h1, h2, h3]
  simp

/-- The parser reads the encoding of a `Person` of well-formed UTF-8 as the object
with the members `id` and `name` holding the two strings. -/
theorem parseValue_marshalPerson (p : Person) (hID : validString p.ID = true)
    (hName : validString p.Name = true) (f depth : Nat) (hd : depth < maxNestingDepth)
    (rest : GoString) :
    parseValue (f + 4) depth (marshalPerson p ++ rest)
      = some (.obj [(lit "id", .str p.ID), (lit "name", .str p.Name)], rest) := by
  have hlast := parseMembers_last (lit "name") p.Name rest (by decide) hName f (depth + 1)
  have hsp : skipSpace (appendString (lit "name") ++ 0x3A :: (appendString p.Name ++ 0x7D :: rest))
      = appendString (lit "name") ++ 0x3A :: (appendString p.Name ++ 0x7D :: rest) :=
    skipSpace_cons _ _ (by decide)
  have hmem := parseMembers_more (lit "id") p.ID
    (appendString (lit "name") ++ 0x3A :: (appendString p.Name ++ 0x7D :: rest)) rest
    [(lit "name", .str p.Name)] (by decide) hID (f + 1) (depth + 1) (by rw [hsp]; exact hlast)
  have hform : marshalPerson p ++ rest = 0x7B :: 0x22 :: (appendStringBody (lit "id").length (lit "id")
      ++ [0x22] ++ 0x3A :: (appendString p.ID
      ++ 0x2C :: (appendString (lit "name") ++ 0x3A :: (appendString p.Name ++ 0x7D :: rest)))) := by
    rw [marshalPerson_members]
    simp [appendString]
  have hmem' : parseMembers (f + 3) (depth + 1) (0x22 :: (appendStringBody (lit "id").length (lit "id")
      ++ [0x22] ++ 0x3A :: (appendString p.ID
      ++ 0x2C :: (appendString (lit "name") ++ 0x3A :: (appendString p.Name ++ 0x7D :: rest)))))
      = some ([(lit "id", .str p.ID), (lit "name", .str p.Name)], rest) := hmem
  have hdepth : ¬ maxNestingDepth < depth + 1 := by omega
  rw [hform]
  simp only [parseValue, if_true, hdepth, if_false, skipSpace_cons 0x22 _ (by decide),
    show ¬ ((0x22 : Nat) = 0x7D) by decide, hmem']

/-- The decoder reads the encoding of a `Person` of well-formed UTF-8 as the object with
the members `id` and `name` holding the two strings. -/
theorem decodeValue_marshalPerson (p : Person) (hID : validString p.ID = true)
    (hName : validString p.Name = true) :
    decodeValue (marshalPerson p)
      = some (.obj [(lit "id", .str p.ID), (lit "name", .str p.Name)]) := by
  have hlen : 1 ≤ (marshalPerson p).length := by
    rw [marshalPerson_members]
    simp
  obtain ⟨f, hf⟩ : ∃ f, 2 * (marshalPerson p).length + 2 = f + 4 :=
    ⟨2 * (marshalPerson p).length - 2, by omega⟩
  have hsp : skipSpace (marshalPerson p) = marshalPerson p := by
    rw [marshalPerson_members]
    exact skipSpace_cons _ _ (by decide)
  have h := parseValue_marshalPerson p hID hName f 0 (by decide) []
  rw [List.append_nil] at h
  simp only [decodeValue, hsp, hf, h, Option.map_some']

theorem index_source_id (personID personName : JVal) :
    GoMap.index [(lit "id", personID), (lit "name", personName)] (lit "id") = personID := by
  have h1 : (lit "id" == lit "id") = true := by decide
  have h2 : (lit "name" == lit "id") = false := by decide
  simp [GoMap.index, List.filter, h1, h2]

theorem index_source_name (personID personName : JVal) :
    GoMap.index [(lit "id", personID), (lit "name", personName)] (lit "name") = personName := by
  have h1 : (lit "id" == lit "name") = false := by decide
  have h2 : (lit "name" == lit "name") = true := by decide
  simp [GoMap.index, List.filter, h1, h2]

/-- C1, as amended. Write-then-read round trip for a `Person` with a non-empty id
whose id and name are well-formed UTF-8: `insertSingle` sends `json.Marshal` of the
person as the body of its request, and when the lookup of the id is answered by a
200 response whose `_source` is the value of that body, `queryByID` returns the same
`Person` with a nil error. -/
theorem insert_then_query_roundtrip {σ : Type} (es : Client σ) (indexName : GoString)
    (p : Person) (w w1 : World σ) (res : Response) (b : σ) (result : GoMap)
    (_hid : p.ID ≠ [])
    (hvID : validString p.ID = true) (hvName : validString p.Name = true)
    (hdo : es.perform (Request.Get indexName p.ID) w1.backend = (.ok res, b))
    (h200 : res.StatusCode = 200)
    (hdec : decodeMap res.Body = some result)
    (hsrc : decodeValue (marshalPerson p) = some (result.index (lit "_source"))) :
    (insertSingle es indexName p w).2.sent
        = w.sent ++ [Request.Index indexName p.ID (marshalPerson p) (lit "true")]
    ∧ queryByID es indexName p.ID w1
        = (.ret (p, none), ⟨b, w1.sent ++ [Request.Get indexName p.ID]⟩) := by
  refine ⟨?_, ?_⟩
  · simp only [insertSingle, write_world]
  · rw [decodeValue_marshalPerson p hvID hvName] at hsrc
    have hsrc' : result.index (lit "_source")
        = .obj [(lit "id", .str p.ID), (lit "name", .str p.Name)] := by
      simpa using hsrc.symm
    have herr : res.IsError = false := by
      simp [Response.IsError, h200]
    simp [queryByID, do_eq _ _ _ _ _ hdo, h200, herr, hdec, hsrc', JVal.assertMap,
      JVal.assertString, index_source_id, index_source_name]

/-- Witness of C1: the person `p1001` named in two Chinese characters, and a lookup
response that carries the stored body as `_source`. -/
theorem insert_then_query_roundtrip_witness :
    (insertSingle (constBackend (storedDocResponse ⟨lit "p1001", lit "张三"⟩)) (lit "person")
        ⟨lit "p1001", lit "张三"⟩ emptyWorld).2.sent
        = emptyWorld.sent ++ [Request.Index (lit "person") (lit "p1001")
            (marshalPerson ⟨lit "p1001", lit "张三"⟩) (lit "true")]
    ∧ queryByID (constBackend (storedDocResponse ⟨lit "p1001", lit "张三"⟩)) (lit "person")
        (lit "p1001") emptyWorld
        = (.ret (⟨lit "p1001", lit "张三"⟩, none),
            ⟨(), emptyWorld.sent ++ [Request.Get (lit "person") (lit "p1001")]⟩) :=
  insert_then_query_roundtrip (constBackend (storedDocResponse ⟨lit "p1001", lit "张三"⟩))
    (lit "person") ⟨lit "p1001", lit "张三"⟩ emptyWorld emptyWorld
    (storedDocResponse ⟨lit "p1001", lit "张三"⟩) ()
    [(lit "_index", .str (lit "person")), (lit "found", .bool true),
      (lit "_source", .obj [(lit "id", .str (lit "p1001")), (lit "name", .str (lit "张三"))])]
    (by decide) (by decide) (by decide) rfl rfl (by rfl) (by rfl)

/-- Counterexample to C1: a person with a non-empty id whose name is the byte 0xFF.
The lookup response carries the stored body as `_source`, and `queryByID` returns a
person whose name is the three bytes of U+FFFD, not the person written. -/
theorem roundtrip_invalid_utf8_counterexample :
    invalidNamePerson.ID ≠ []
    ∧ (∃ result, decodeMap (storedDocResponse invalidNamePerson).Body = some result
        ∧ decodeValue (marshalPerson invalidNamePerson) = some (result.index (lit "_source")))
    ∧ queryByID (constBackend (storedDocResponse invalidNamePerson)) (lit "person")
        invalidNamePerson.ID emptyWorld
        = (.ret (⟨lit "p1001", [0xEF, 0xBF, 0xBD]⟩, none),
            ⟨(), [Request.Get (lit "person") (lit "p1001")]⟩)
    ∧ (⟨lit "p1001", [0xEF, 0xBF, 0xBD]⟩ : Person) ≠ invalidNamePerson :=
  ⟨by decide,
    ⟨[(lit "_index", .str (lit "person")), (lit "found", .bool true),
      (lit "_source", .obj [(lit "id", .str (lit "p1001")),
        (lit "name", .str [0xEF, 0xBF, 0xBD])])], by rfl, by rfl⟩,
    by rfl, by decide⟩

/-! ### The fuel of the parser is enough -/

theorem skipSpace_length (s : GoString) : (skipSpace s).length ≤ s.length := by
  induction s with
  | nil => simp [skipSpace]
  | cons c t ih =>
    simp only [skipSpace]
    split
    · simp only [List.length_cons]; omega
    · simp

theorem getu4_length (s rest : GoString) (r : Nat) (h : getu4 s = some (r, rest)) :
    rest.length + 6 = s.length := by
  unfold getu4 at h
  split at h
  · split at h
    · split at h
      · simp only [Option.some.injEq, Prod.mk.injEq] at h
        obtain ⟨_, rfl⟩ := h
        simp
      · simp at h
    · simp at h
  · simp at h

theorem prepend_eq_some (out x rest : GoString) (o : Option (GoString × GoString))
    (h : prepend out o = some (x, rest)) : ∃ y, o = some (y, rest) := by
  cases o with
  | none => simp [prepend] at h
  | some p =>
    obtain ⟨y, r⟩ := p
    simp only [prepend, Option.some.injEq, Prod.mk.injEq] at h
    exact ⟨y, by rw [h.2]⟩

/-- A string literal that was read is not empty: what follows it is shorter than
the input. -/
theorem unquoteBody_length (f : Nat) :
    ∀ s x rest : GoString, unquoteBody f s = some (x, rest) → rest.length < s.length := by
  induction f with
  | zero => intro s x rest h; simp [unquoteBody] at h
  | succ f ih =>
    intro s x rest h
    cases s with
    | nil => simp [unquoteBody] at h
    | cons c t =>
      simp only [unquoteBody] at h
      split at h
      · simp only [Option.some.injEq, Prod.mk.injEq] at h
        obtain ⟨_, rfl⟩ := h
        simp
      · split at h
        · split at h
          · simp at h
          · rename_i e rest1
            split at h
            · split at h
              · simp at h
              · rename_i rr rest2 hg
                have hl := getu4_length _ _ _ hg
                simp only [List.length_cons] at hl ⊢
                split at h
                · split at h
                  · rename_i rr1 rest3 hg1
                    have hl1 := getu4_length _ _ _ hg1
                    split at h
                    · obtain ⟨y, hy⟩ := prepend_eq_some _ _ _ _ h
                      have := ih _ _ _ hy
                      omega
                    · obtain ⟨y, hy⟩ := prepend_eq_some _ _ _ _ h
                      have := ih _ _ _ hy
                      omega
                  · obtain ⟨y, hy⟩ := prepend_eq_some _ _ _ _ h
                    have := ih _ _ _ hy
                    omega
                · obtain ⟨y, hy⟩ := prepend_eq_some _ _ _ _ h
                  have := ih _ _ _ hy
                  omega
            · split at h
              · obtain ⟨y, hy⟩ := prepend_eq_some _ _ _ _ h
                have := ih _ _ _ hy
                simp only [List.length_cons] at this ⊢
                omega
              · simp at h
        · split at h
          · simp at h
          · split at h
            · obtain ⟨y, hy⟩ := prepend_eq_some _ _ _ _ h
              have := ih _ _ _ hy
              simp only [List.length_cons] at this ⊢
              omega
            · obtain ⟨y, hy⟩ := prepend_eq_some _ _ _ _ h
              have := ih _ _ _ hy
              have hsz := decodeRune_size c t
              simp only [List.length_drop, List.length_cons] at this hsz ⊢
              omega

theorem scanString_length (s x rest : GoString) (h : scanString s = some (x, rest)) :
    rest.length < s.length :=
  unquoteBody_length _ s x rest h

theorem dropLiteral_length (name : GoString) :
    ∀ s rest : GoString, dropLiteral name s = some rest → rest.length + name.length = s.length := by
  induction name with
  | nil => intro s rest h; simp [dropLiteral] at h; simp [h]
  | cons a name ih =>
    intro s rest h
    cases s with
    | nil => simp [dropLiteral] at h
    | cons b t =>
      simp only [dropLiteral] at h
      split at h
      · have := ih _ _ h
        simp only [List.length_cons]
        omega
      · simp at h

theorem span_snd_length (p : Nat → Bool) (l : GoString) : (l.span p).2.length ≤ l.length := by
  rw [List.span_eq_take_drop]
  exact (List.dropWhile_suffix p).length_le

theorem scanInt_length (s ds rest : GoString) (h : scanInt s = some (ds, rest)) :
    rest.length < s.length := by
  unfold scanInt at h
  split at h
  · simp at h
  · rename_i d t
    split at h
    · simp only [Option.some.injEq, Prod.mk.injEq] at h
      obtain ⟨_, rfl⟩ := h
      simp
    · split at h
      · simp only [Option.some.injEq, Prod.mk.injEq] at h
        obtain ⟨_, rfl⟩ := h
        have := span_snd_length isDigit t
        simp only [List.length_cons]
        omega
      · simp at h

theorem scanFrac_length (s fs rest : GoString) (h : scanFrac s = some (fs, rest)) :
    rest.length ≤ s.length := by
  unfold scanFrac at h
  split at h
  · simp only [Option.some.injEq, Prod.mk.injEq] at h
    obtain ⟨_, rfl⟩ := h
    simp
  · rename_i c t
    split at h
    · split at h
      · simp at h
      · simp only [Option.some.injEq] at h
        have := span_snd_length isDigit t
        have e : (t.span isDigit).2 = rest := by rw [h]
        rw [e] at this
        simp only [List.length_cons]
        omega
    · simp only [Option.some.injEq, Prod.mk.injEq] at h
      obtain ⟨_, rfl⟩ := h
      simp

theorem scanExp_length (s ds rest : GoString) (neg : Bool)
    (h : scanExp s = some (neg, ds, rest)) : rest.length ≤ s.length := by
  unfold scanExp at h
  split at h
  · simp only [Option.some.injEq, Prod.mk.injEq] at h
    obtain ⟨_, _, rfl⟩ := h
    simp
  · rename_i c t
    by_cases hc : c = 0x65 ∨ c = 0x45
    · simp only [hc, if_true] at h
      generalize hd : (if t.head? = some 0x2D ∨ t.head? = some 0x2B then t.tail else t)
        = digits at h
      have h2 : digits.length ≤ t.length := by
        rw [← hd]
        split
        · simp
        · exact Nat.le_refl _
      by_cases he : (digits.span isDigit).1 = []
      · simp only [he, if_true] at h
        exact Option.noConfusion h
      · simp only [he, if_false, Option.some.injEq, Prod.mk.injEq] at h
        obtain ⟨_, _, rfl⟩ := h
        have := span_snd_length isDigit digits
        simp only [List.length_cons]
        omega
    · simp only [hc, if_false, Option.some.injEq, Prod.mk.injEq] at h
      obtain ⟨_, _, rfl⟩ := h
      simp

theorem scanNumber_length (s rest : GoString) (v : JVal) (h : scanNumber s = some (v, rest)) :
    rest.length < s.length := by
  unfold scanNumber at h
  simp only at h
  split at h
  · simp at h
  · rename_i intDigits r0 hi
    have h0 := scanInt_length _ _ _ hi
    have hs : (if s.head? = some 0x2D then s.tail else s).length ≤ s.length := by
      split
      · simp
      · exact Nat.le_refl _
    split at h
    · simp at h
    · rename_i fracDigits r1 hf
      have h1 := scanFrac_length _ _ _ hf
      split at h
      · simp at h
      · rename_i expNeg expDigits r2 he
        have h2 := scanExp_length _ _ _ _ he
        split at h
        · simp at h
        · simp only [Option.some.injEq, Prod.mk.injEq] at h
          obtain ⟨_, rfl⟩ := h
          omega

theorem parseValue_fuel_step (f : Nat)
    (hE : ∀ d s vs rest, parseElems f d s = some (vs, rest) →
      rest.length < s.length
        ∧ ∀ g, 2 * s.length + 2 ≤ g → parseElems g d s = some (vs, rest))
    (hM : ∀ d s ms rest, parseMembers f d s = some (ms, rest) →
      rest.length < s.length
        ∧ ∀ g, 2 * s.length + 2 ≤ g → parseMembers g d s = some (ms, rest)) :
    ∀ d s v rest, parseValue (f + 1) d s = some (v, rest) →
      rest.length < s.length
        ∧ ∀ g, 2 * s.length + 1 ≤ g → parseValue g d s = some (v, rest) := by
  intro d s v rest h
  cases s with
  | nil => simp [parseValue] at h
  | cons c t =>
    simp only [parseValue] at h
    by_cases hc1 : c = 0x7B
    · simp only [hc1, if_true] at h
      by_cases hdep : maxNestingDepth < d + 1
      · simp only [hdep, if_true] at h
        exact Option.noConfusion h
      · simp only [hdep, if_false] at h
        have hsl := skipSpace_length t
        cases hsk : skipSpace t with
        | nil => simp only [hsk] at h; exact Option.noConfusion h
        | cons c1 t1 =>
          rw [hsk] at hsl
          simp only [hsk] at h
          by_cases hc2 : c1 = 0x7D
          · simp only [hc2, if_true, Option.some.injEq, Prod.mk.injEq] at h
            obtain ⟨rfl, rfl⟩ := h
            refine ⟨by simp only [List.length_cons] at hsl ⊢; omega, fun g hg => ?_⟩
            obtain ⟨g1, rfl⟩ : ∃ g1, g = g1 + 1 := ⟨g - 1, by omega⟩
            simp only [parseValue, hc1, if_true, hdep, if_false, hsk, hc2]
          · simp only [hc2, if_false] at h
            cases hm : parseMembers f (d + 1) (c1 :: t1) with
            | none => simp only [hm] at h; exact Option.noConfusion h
            | some r =>
              obtain ⟨ms, rest2⟩ := r
              simp only [hm, Option.some.injEq, Prod.mk.injEq] at h
              obtain ⟨rfl, rfl⟩ := h
              obtain ⟨hlen, hfuel⟩ := hM _ _ _ _ hm
              refine ⟨by simp only [List.length_cons] at hsl hlen ⊢; omega, fun g hg => ?_⟩
              obtain ⟨g1, rfl⟩ : ∃ g1, g = g1 + 1 := ⟨g - 1, by omega⟩
              have := hfuel g1 (by simp only [List.length_cons] at hsl hg ⊢; omega)
              simp only [parseValue, hc1, if_true, hdep, if_false, hsk, hc2, this]
    · simp only [hc1, if_false] at h
      by_cases hc3 : c = 0x5B
      · simp only [hc3, if_true] at h
        by_cases hdep : maxNestingDepth < d + 1
        · simp only [hdep, if_true] at h
          exact Option.noConfusion h
        · simp only [hdep, if_false] at h
          have hsl := skipSpace_length t
          cases hsk : skipSpace t with
          | nil => simp only [hsk] at h; exact Option.noConfusion h
          | cons c1 t1 =>
            rw [hsk] at hsl
            simp only [hsk] at h
            by_cases hc2 : c1 = 0x5D
            · simp only [hc2, if_true, Option.some.injEq, Prod.mk.injEq] at h
              obtain ⟨rfl, rfl⟩ := h
              refine ⟨by simp only [List.length_cons] at hsl ⊢; omega, fun g hg => ?_⟩
              obtain ⟨g1, rfl⟩ : ∃ g1, g = g1 + 1 := ⟨g - 1, by omega⟩
              simp only [parseValue, hc3, show ¬ ((0x5B : Nat) = 0x7B) by decide, if_true, hdep,
                if_false, hsk, hc2]
            · simp only [hc2, if_false] at h
              cases hm : parseElems f (d + 1) (c1 :: t1) with
              | none => simp only [hm] at h; exact Option.noConfusion h
              | some r =>
                obtain ⟨vs, rest2⟩ := r
                simp only [hm, Option.some.injEq, Prod.mk.injEq] at h
                obtain ⟨rfl, rfl⟩ := h
                obtain ⟨hlen, hfuel⟩ := hE _ _ _ _ hm
                refine ⟨by simp only [List.length_cons] at hsl hlen ⊢; omega, fun g hg => ?_⟩
                obtain ⟨g1, rfl⟩ : ∃ g1, g = g1 + 1 := ⟨g - 1, by omega⟩
                have := hfuel g1 (by simp only [List.length_cons] at hsl hg ⊢; omega)
                simp only [parseValue, hc3, show ¬ ((0x5B : Nat) = 0x7B) by decide, if_true, hdep,
                  if_false, hsk, hc2, this]
      · simp only [hc3, if_false] at h
        by_cases hc4 : c = 0x22
        · simp only [hc4, if_true] at h
          cases hs : scanString t with
          | none => simp only [hs] at h; exact Option.noConfusion h
          | some r =>
            obtain ⟨x, r1⟩ := r
            simp only [hs, Option.some.injEq, Prod.mk.injEq] at h
            obtain ⟨rfl, rfl⟩ := h
            have hlen := scanString_length _ _ _ hs
            refine ⟨by simp only [List.length_cons]; omega, fun g hg => ?_⟩
            obtain ⟨g1, rfl⟩ : ∃ g1, g = g1 + 1 := ⟨g - 1, by omega⟩
            simp only [parseValue, hc4, show ¬ ((0x22 : Nat) = 0x7B) by decide,
              show ¬ ((0x22 : Nat) = 0x5B) by decide, if_true, if_false, hs]
        · simp only [hc4, if_false] at h
          by_cases hc5 : c = 0x74
          · simp only [hc5, if_true] at h
            cases hl : dropLiteral (lit "true") (0x74 :: t) with
            | none => simp only [hl, Option.map_none'] at h; exact Option.noConfusion h
            | some r =>
              simp only [hl, Option.map_some', Option.some.injEq, Prod.mk.injEq] at h
              obtain ⟨rfl, rfl⟩ := h
              have hlen := dropLiteral_length _ _ _ hl
              have h4 : (lit "true").length = 4 := by decide
              rw [hc5]
              refine ⟨by omega, fun g hg => ?_⟩
              obtain ⟨g1, rfl⟩ : ∃ g1, g = g1 + 1 := ⟨g - 1, by omega⟩
              simp only [parseValue, show ¬ ((0x74 : Nat) = 0x7B) by decide,
                show ¬ ((0x74 : Nat) = 0x5B) by decide, show ¬ ((0x74 : Nat) = 0x22) by decide,
                if_true, if_false, hl, Option.map_some']
          · simp only [hc5, if_false] at h
            by_cases hc6 : c = 0x66
            · simp only [hc6, if_true] at h
              cases hl : dropLiteral (lit "false") (0x66 :: t) with
              | none => simp only [hl, Option.map_none'] at h; exact Option.noConfusion h
              | some r =>
                simp only [hl, Option.map_some', Option.some.injEq, Prod.mk.injEq] at h
                obtain ⟨rfl, rfl⟩ := h
                have hlen := dropLiteral_length _ _ _ hl
                have h4 : (lit "false").length = 5 := by decide
                rw [hc6]
                refine ⟨by omega, fun g hg => ?_⟩
                obtain ⟨g1, rfl⟩ : ∃ g1, g = g1 + 1 := ⟨g - 1, by omega⟩
                simp only [parseValue, show ¬ ((0x66 : Nat) = 0x7B) by decide,
                  show ¬ ((0x66 : Nat) = 0x5B) by decide, show ¬ ((0x66 : Nat) = 0x22) by decide,
                  show ¬ ((0x66 : Nat) = 0x74) by decide, if_true, if_false, hl,
                  Option.map_some']
            · simp only [hc6, if_false] at h
              by_cases hc7 : c = 0x6E
              · simp only [hc7, if_true] at h
                cases hl : dropLiteral (lit "null") (0x6E :: t) with
                | none => simp only [hl, Option.map_none'] at h; exact Option.noConfusion h
                | some r =>
                  simp only [hl, Option.map_some', Option.some.injEq, Prod.mk.injEq] at h
                  obtain ⟨rfl, rfl⟩ := h
                  have hlen := dropLiteral_length _ _ _ hl
                  have h4 : (lit "null").length = 4 := by decide
                  rw [hc7]
                  refine ⟨by omega, fun g hg => ?_⟩
                  obtain ⟨g1, rfl⟩ : ∃ g1, g = g1 + 1 := ⟨g - 1, by omega⟩
                  simp only [parseValue, show ¬ ((0x6E : Nat) = 0x7B) by decide,
                    show ¬ ((0x6E : Nat) = 0x5B) by decide,
                    show ¬ ((0x6E : Nat) = 0x22) by decide,
                    show ¬ ((0x6E : Nat) = 0x74) by decide,
                    show ¬ ((0x6E : Nat) = 0x66) by decide, if_true, if_false, hl,
                    Option.map_some']
              · simp only [hc7, if_false] at h
                have hlen := scanNumber_length _ _ _ h
                refine ⟨hlen, fun g hg => ?_⟩
                obtain ⟨g1, rfl⟩ : ∃ g1, g = g1 + 1 := ⟨g - 1, by omega⟩
                simp only [parseValue, hc1, hc3, hc4, hc5, hc6, hc7, if_false, h]

theorem parseElems_fuel_step (f : Nat)
    (hV : ∀ d s v rest, parseValue f d s = some (v, rest) →
      rest.length < s.length
        ∧ ∀ g, 2 * s.length + 1 ≤ g → parseValue g d s = some (v, rest))
    (hE : ∀ d s vs rest, parseElems f d s = some (vs, rest) →
      rest.length < s.length
        ∧ ∀ g, 2 * s.length + 2 ≤ g → parseElems g d s = some (vs, rest)) :
    ∀ d s vs rest, parseElems (f + 1) d s = some (vs, rest) →
      rest.length < s.length
        ∧ ∀ g, 2 * s.length + 2 ≤ g → parseElems g d s = some (vs, rest) := by
  intro d s vs rest h
  simp only [parseElems] at h
  cases hv : parseValue f d s with
  | none => simp only [hv] at h; exact Option.noConfusion h
  | some r =>
    obtain ⟨v, r0⟩ := r
    simp only [hv] at h
    obtain ⟨hlen0, hfuel0⟩ := hV _ _ _ _ hv
    have hsl := skipSpace_length r0
    cases hsk : skipSpace r0 with
    | nil => simp only [hsk] at h; exact Option.noConfusion h
    | cons c r1 =>
      rw [hsk] at hsl
      simp only [hsk] at h
      simp only [List.length_cons] at hsl
      by_cases hc : c = 0x2C
      · simp only [hc, if_true] at h
        have hsl1 := skipSpace_length r1
        cases he : parseElems f d (skipSpace r1) with
        | none => simp only [he] at h; exact Option.noConfusion h
        | some r =>
          obtain ⟨vs1, rest2⟩ := r
          simp only [he, Option.some.injEq, Prod.mk.injEq] at h
          obtain ⟨rfl, rfl⟩ := h
          obtain ⟨hlen1, hfuel1⟩ := hE _ _ _ _ he
          refine ⟨by omega, fun g hg => ?_⟩
          obtain ⟨g1, rfl⟩ : ∃ g1, g = g1 + 1 := ⟨g - 1, by omega⟩
          have e1 := hfuel0 g1 (by omega)
          have e2 := hfuel1 g1 (by omega)
          simp only [parseElems, e1, hsk, hc, if_true, e2]
      · simp only [hc, if_false] at h
        by_cases hc2 : c = 0x5D
        · simp only [hc2, if_true, Option.some.injEq, Prod.mk.injEq] at h
          obtain ⟨rfl, rfl⟩ := h
          refine ⟨by omega, fun g hg => ?_⟩
          obtain ⟨g1, rfl⟩ : ∃ g1, g = g1 + 1 := ⟨g - 1, by omega⟩
          have e1 := hfuel0 g1 (by omega)
          simp only [parseElems, e1, hsk, hc2, show ¬ ((0x5D : Nat) = 0x2C) by decide, if_false,
            if_true]
        · simp only [hc2, if_false] at h
          exact Option.noConfusion h

theorem parseMembers_fuel_step (f : Nat)
    (hV : ∀ d s v rest, parseValue f d s = some (v, rest) →
      rest.length < s.length
        ∧ ∀ g, 2 * s.length + 1 ≤ g → parseValue g d s = some (v, rest))
    (hM : ∀ d s ms rest, parseMembers f d s = some (ms, rest) →
      rest.length < s.length
        ∧ ∀ g, 2 * s.length + 2 ≤ g → parseMembers g d s = some (ms, rest)) :
    ∀ d s ms rest, parseMembers (f + 1) d s = some (ms, rest) →
      rest.length < s.length
        ∧ ∀ g, 2 * s.length + 2 ≤ g → parseMembers g d s = some (ms, rest) := by
  intro d s ms rest h
  cases s with
  | nil => simp [parseMembers] at h
  | cons q t =>
    simp only [parseMembers] at h
    by_cases hq : q = 0x22
    · simp only [hq, if_true] at h
      cases hs : scanString t with
      | none => simp only [hs] at h; exact Option.noConfusion h
      | some r =>
        obtain ⟨key, r1⟩ := r
        simp only [hs] at h
        have hlenk := scanString_length _ _ _ hs
        have hsl1 := skipSpace_length r1
        cases hsk1 : skipSpace r1 with
        | nil => simp only [hsk1] at h; exact Option.noConfusion h
        | cons c r2 =>
          rw [hsk1] at hsl1
          simp only [hsk1] at h
          simp only [List.length_cons] at hsl1
          by_cases hc : c = 0x3A
          · simp only [hc, if_true] at h
            have hsl2 := skipSpace_length r2
            cases hv : parseValue f d (skipSpace r2) with
            | none => simp only [hv] at h; exact Option.noConfusion h
            | some r =>
              obtain ⟨v, r3⟩ := r
              simp only [hv] at h
              obtain ⟨hlen3, hfuel3⟩ := hV _ _ _ _ hv
              have hsl3 := skipSpace_length r3
              cases hsk3 : skipSpace r3 with
              | nil => simp only [hsk3] at h; exact Option.noConfusion h
              | cons c1 r4 =>
                rw [hsk3] at hsl3
                simp only [hsk3] at h
                simp only [List.length_cons] at hsl3
                by_cases hc1 : c1 = 0x2C
                · simp only [hc1, if_true] at h
                  have hsl4 := skipSpace_length r4
                  cases hm : parseMembers f d (skipSpace r4) with
                  | none => simp only [hm] at h; exact Option.noConfusion h
                  | some r =>
                    obtain ⟨ms1, rest5⟩ := r
                    simp only [hm, Option.some.injEq, Prod.mk.injEq] at h
                    obtain ⟨rfl, rfl⟩ := h
                    obtain ⟨hlen5, hfuel5⟩ := hM _ _ _ _ hm
                    refine ⟨by simp only [List.length_cons]; omega, fun g hg => ?_⟩
                    obtain ⟨g1, rfl⟩ : ∃ g1, g = g1 + 1 := ⟨g - 1, by omega⟩
                    simp only [List.length_cons] at hg
                    have e1 := hfuel3 g1 (by omega)
                    have e2 := hfuel5 g1 (by omega)
                    simp only [parseMembers, hq, if_true, hs, hsk1, hc, e1, hsk3, hc1, e2]
                · simp only [hc1, if_false] at h
                  by_cases hc2 : c1 = 0x7D
                  · simp only [hc2, if_true, Option.some.injEq, Prod.mk.injEq] at h
                    obtain ⟨rfl, rfl⟩ := h
                    refine ⟨by simp only [List.length_cons]; omega, fun g hg => ?_⟩
                    obtain ⟨g1, rfl⟩ : ∃ g1, g = g1 + 1 := ⟨g - 1, by omega⟩
                    simp only [List.length_cons] at hg
                    have e1 := hfuel3 g1 (by omega)
                    simp only [parseMembers, hq, if_true, hs, hsk1, hc, e1, hsk3, hc2,
                      show ¬ ((0x7D : Nat) = 0x2C) by decide, if_false]
                  · simp only [hc2, if_false] at h
                    exact Option.noConfusion h
          · simp only [hc, if_false] at h
            exact Option.noConfusion h
    · simp only [hq, if_false] at h
      exact Option.noConfusion h

/-- The fuel `decodeValue` gives the parser is enough: a value the parser reads with
some fuel is read, with the same rest, with any fuel of at least twice the length
of the input plus one (plus two for the elements of an array and the members of an
object), and reading a value consumes input. -/
theorem parse_fuel (f : Nat) :
    (∀ d s v rest, parseValue f d s = some (v, rest) →
      rest.length < s.length
        ∧ ∀ g, 2 * s.length + 1 ≤ g → parseValue g d s = some (v, rest))
    ∧ (∀ d s vs rest, parseElems f d s = some (vs, rest) →
      rest.length < s.length
        ∧ ∀ g, 2 * s.length + 2 ≤ g → parseElems g d s = some (vs, rest))
    ∧ (∀ d s ms rest, parseMembers f d s = some (ms, rest) →
      rest.length < s.length
        ∧ ∀ g, 2 * s.length + 2 ≤ g → parseMembers g d s = some (ms, rest)) := by
  induction f with
  | zero =>
    refine ⟨?_, ?_, ?_⟩
    · intro d s v rest h; simp [parseValue] at h
    · intro d s vs rest h; simp [parseElems] at h
    · intro d s ms rest h; simp [parseMembers] at h
  | succ f ih =>
    obtain ⟨hV, hE, hM⟩ := ih
    exact ⟨parseValue_fuel_step f hE hM, parseElems_fuel_step f hV hE,
      parseMembers_fuel_step f hV hM⟩

/-- The decoder does not depend on its fuel: a value the parser reads from `body`
with any fuel is the value `decodeValue` returns. -/
theorem decodeValue_of_parseValue (body rest : GoString) (v : JVal) (f : Nat)
    (h : parseValue f 0 (skipSpace body) = some (v, rest)) : decodeValue body = some v := by
  have hsl := skipSpace_length body
  have := ((parse_fuel f).1 _ _ _ _ h).2 (2 * body.length + 2) (by omega)
  simp only [decodeValue, this, Option.map_some']

/-! ### The fuel of the string functions is enough -/

/-- The encoder does not depend on its fuel, once the fuel is at least the length of
the string. -/
theorem appendStringBody_fuel (n : Nat) :
    ∀ s : GoString, s.length ≤ n → ∀ m, s.length ≤ m →
      appendStringBody n s = appendStringBody m s := by
  induction n with
  | zero =>
    intro s hs m _
    have : s = [] := List.eq_nil_of_length_eq_zero (by omega)
    subst this
    cases m <;> simp [appendStringBody]
  | succ n ih =>
    intro s hs m hm
    cases s with
    | nil => cases m <;> simp [appendStringBody]
    | cons b t =>
      obtain ⟨m1, rfl⟩ : ∃ m1, m = m1 + 1 := ⟨m - 1, by simp only [List.length_cons] at hm; omega⟩
      simp only [List.length_cons] at hs hm
      have hsz := decodeRune_size b t
      have h1 := ih t (by omega) m1 (by omega)
      have h2 := ih ((b :: t).drop (decodeRune (b :: t)).2)
        (by simp only [List.length_drop, List.length_cons]; omega) m1
        (by simp only [List.length_drop, List.length_cons]; omega)
      simp only [appendStringBody, h1, h2]

/-- The validity check does not depend on its fuel, once the fuel is at least the
length of the string. -/
theorem validStringAux_fuel (n : Nat) :
    ∀ s : GoString, s.length ≤ n → ∀ m, s.length ≤ m →
      validStringAux n s = validStringAux m s := by
  induction n with
  | zero =>
    intro s hs m _
    have : s = [] := List.eq_nil_of_length_eq_zero (by omega)
    subst this
    cases m <;> simp [validStringAux]
  | succ n ih =>
    intro s hs m hm
    cases s with
    | nil => cases m <;> simp [validStringAux]
    | cons b t =>
      obtain ⟨m1, rfl⟩ : ∃ m1, m = m1 + 1 := ⟨m - 1, by simp only [List.length_cons] at hm; omega⟩
      simp only [List.length_cons] at hs hm
      have hsz := decodeRune_size b t
      have h2 := ih ((b :: t).drop (decodeRune (b :: t)).2)
        (by simp only [List.length_drop, List.length_cons]; omega) m1
        (by simp only [List.length_drop, List.length_cons]; omega)
      simp only [validStringAux, h2]

theorem prepend_some_iff (out x rest : GoString) (o : Option (GoString × GoString))
    (h : prepend out o = some (x, rest)) : ∃ y, o = some (y, rest) ∧ x = out ++ y := by
  cases o with
  | none => simp [prepend] at h
  | some p =>
    obtain ⟨y, r⟩ := p
    simp only [prepend, Option.some.injEq, Prod.mk.injEq] at h
    exact ⟨y, by rw [h.2], h.1.symm⟩

/-- The string decoder does not depend on its fuel: a literal read with some fuel
is read, with the same rest, with any fuel of at least the length of the input. -/
theorem unquoteBody_fuel (f : Nat) :
    ∀ s x rest : GoString, unquoteBody f s = some (x, rest) →
      ∀ g, s.length ≤ g → unquoteBody g s = some (x, rest) := by
  induction f with
  | zero => intro s x rest h; simp [unquoteBody] at h
  | succ f ih =>
    intro s x rest h g hg
    cases s with
    | nil => simp [unquoteBody] at h
    | cons c t =>
      obtain ⟨g1, rfl⟩ : ∃ g1, g = g1 + 1 := ⟨g - 1, by simp only [List.length_cons] at hg; omega⟩
      simp only [List.length_cons] at hg
      simp only [unquoteBody] at h ⊢
      by_cases h1 : c = 0x22
      · simp only [h1, if_true] at h ⊢
        exact h
      · simp only [h1, if_false] at h ⊢
        by_cases h2 : c = 0x5C
        · simp only [h2, if_true] at h ⊢
          cases t with
          | nil => simp at h
          | cons e rest1 =>
            simp only [List.length_cons] at hg
            simp only at h ⊢
            by_cases h3 : e = 0x75
            · simp only [h3, if_true] at h ⊢
              cases hg4 : getu4 (0x5C :: 0x75 :: rest1) with
              | none => simp only [hg4] at h; exact Option.noConfusion h
              | some r =>
                obtain ⟨rr, rest2⟩ := r
                have hl := getu4_length _ _ _ hg4
                simp only [List.length_cons] at hl
                simp only [hg4] at h ⊢
                by_cases h4 : 0xD800 ≤ rr ∧ rr ≤ 0xDFFF
                · simp only [h4, and_self, if_true] at h ⊢
                  cases hg5 : getu4 rest2 with
                  | none =>
                    simp only [hg5] at h ⊢
                    obtain ⟨y, hy, rfl⟩ := prepend_some_iff _ _ _ _ h
                    rw [ih _ _ _ hy g1 (by omega)]
                    simp only [prepend]
                  | some r1 =>
                    obtain ⟨rr1, rest3⟩ := r1
                    have hl1 := getu4_length _ _ _ hg5
                    simp only [hg5] at h ⊢
                    by_cases h5 : rr < 0xDC00 ∧ 0xDC00 ≤ rr1 ∧ rr1 ≤ 0xDFFF
                    · simp only [h5, and_self, if_true] at h ⊢
                      generalize encodeRune ((rr - 0xD800) * 1024 + (rr1 - 0xDC00) + 0x10000)
                        = out at h ⊢
                      obtain ⟨y, hy, rfl⟩ := prepend_some_iff _ _ _ _ h
                      rw [ih _ _ _ hy g1 (by omega)]
                      simp only [prepend]
                    · simp only [h5, if_false] at h ⊢
                      obtain ⟨y, hy, rfl⟩ := prepend_some_iff _ _ _ _ h
                      rw [ih _ _ _ hy g1 (by omega)]
                      simp only [prepend]
                · simp only [h4, if_false] at h ⊢
                  obtain ⟨y, hy, rfl⟩ := prepend_some_iff _ _ _ _ h
                  rw [ih _ _ _ hy g1 (by omega)]
                  simp only [prepend]
            · simp only [h3, if_false] at h ⊢
              cases hu : unescape e with
              | none => simp only [hu] at h; exact Option.noConfusion h
              | some b =>
                simp only [hu] at h ⊢
                obtain ⟨y, hy, rfl⟩ := prepend_some_iff _ _ _ _ h
                rw [ih _ _ _ hy g1 (by omega)]
                simp only [prepend]
        · simp only [h2, if_false] at h ⊢
          by_cases h3 : c < 0x20
          · simp only [h3, if_true] at h
            exact Option.noConfusion h
          · simp only [h3, if_false] at h ⊢
            by_cases h4 : c < 0x80
            · simp only [h4, if_true] at h ⊢
              obtain ⟨y, hy, rfl⟩ := prepend_some_iff _ _ _ _ h
              rw [ih _ _ _ hy g1 (by omega)]
              simp only [prepend]
            · simp only [h4, if_false] at h ⊢
              obtain ⟨y, hy, rfl⟩ := prepend_some_iff _ _ _ _ h
              have hsz := decodeRune_size c t
              rw [ih _ _ _ hy g1
                (by simp only [List.length_drop, List.length_cons] at hsz ⊢; omega)]
              simp only [prepend]

/-- The range bound of `floatOverflows` is `2^1024 - 2^970`. -/
theorem float64Overflow_eq : float64Overflow = 2 ^ 1024 - 2 ^ 970 := by
  norm_num [float64Overflow]

end EsPerson
